import Mathlib

/-!
Verification development for the statstracker repository (Go).

Shallow embedding conventions:
* Go `time.Time` values are modelled as `Int` (nanoseconds since the Go zero
  time), so `Before`/`After` become `<` and the zero value `time.Time{}` is `0`.
* Go `time.Duration` is an `int64` nanosecond count; `time.Time.Sub` saturates
  at the int64 bounds, modelled by `timeSub`; int64 two's-complement addition
  wraps, modelled by `wrap64`.
* The filesystem used by the file cache is modelled as an association list from
  file path to stored entry; I/O never fails in the model except for the
  "file does not exist" condition, which the code observes via os.IsNotExist.
* Fallible collaborator calls (network clients) are modelled as `Except`-valued
  functions passed in as parameters.
-/

/-- Signed 64-bit bounds: 2^63 and related numerals used for int64 semantics. -/
def i64Half : Int := 9223372036854775808

def i64Mod : Int := 18446744073709551616

theorem i64Half_eq_pow : i64Half = 2 ^ 63 := by norm_num [i64Half]

theorem i64Mod_eq_pow : i64Mod = 2 ^ 64 := by norm_num [i64Mod]

/-- Go two's-complement wraparound of an integer into the int64 range,
as performed by int64 addition overflow. -/
def wrap64 (x : Int) : Int := (x + i64Half) % i64Mod - i64Half

theorem wrap64_eq_of_range {x : Int} (h1 : -i64Half ≤ x) (h2 : x < i64Half) :
    wrap64 x = x := by
  unfold wrap64
  have h0 : (0 : Int) ≤ x + i64Half := by omega
  have hlt : x + i64Half < i64Mod := by
    simp only [i64Half, i64Mod] at *; omega
  rw [Int.emod_eq_of_lt h0 hlt]
  omega

/-- Model of Go `time.Time.Sub`: exact difference saturated to the int64
`time.Duration` range (Go clamps to minDuration/maxDuration on overflow). -/
def timeSub (a b : Int) : Int :=
  if a - b > i64Half - 1 then i64Half - 1
  else if a - b < -i64Half then -i64Half
  else a - b

theorem timeSub_eq_of_range {a b : Int} (h1 : -i64Half ≤ a - b)
    (h2 : a - b ≤ i64Half - 1) : timeSub a b = a - b := by
  unfold timeSub
  rw [if_neg (by omega), if_neg (by omega)]

/-! ### Association-list helpers (model of maps / of the file system) -/

section Assoc

variable {β : Type}

/-- Look up the value stored at a key. -/
def assocLookup : List (String × β) → String → Option β
  | [], _ => none
  | (k', v) :: r, k => if k' = k then some v else assocLookup r k

/-- Store a value at a key, overwriting any previous binding. -/
def assocSet : List (String × β) → String → β → List (String × β)
  | [], k, v => [(k, v)]
  | (k', v') :: r, k, v =>
      if k' = k then (k, v) :: r else (k', v') :: assocSet r k v

/-- Remove every binding of a key. -/
def assocErase (m : List (String × β)) (k : String) : List (String × β) :=
  m.filter (fun kv => decide (kv.1 ≠ k))

@[simp] theorem assocLookup_set_self (m : List (String × β)) (k : String) (v : β) :
    assocLookup (assocSet m k v) k = some v := by
  induction m with
  | nil => simp [assocSet, assocLookup]
  | cons kv r ih =>
    obtain ⟨k', v'⟩ := kv
    by_cases h : k' = k
    · simp [assocSet, assocLookup, h]
    · simp [assocSet, assocLookup, h, ih]

@[simp] theorem assocLookup_erase_self (m : List (String × β)) (k : String) :
    assocLookup (assocErase m k) k = none := by
  induction m with
  | nil => simp [assocErase, assocLookup]
  | cons kv r ih =>
    obtain ⟨k', v'⟩ := kv
    by_cases h : k' = k
    · simpa [assocErase, assocLookup, h] using ih
    · simpa [assocErase, assocLookup, h] using ih

end Assoc

/-! ### Fold-based minimum/maximum, as the Go loops compute them -/

/-- `foldMin v ts` is the result of the Go loop
`for t in ts { if t.Before(acc) { acc = t } }` started at `acc = v`. -/
def foldMin (v : Int) (ts : List Int) : Int :=
  ts.foldl (fun a t => if t < a then t else a) v

/-- `foldMax v ts` is the result of the Go loop
`for t in ts { if t.After(acc) { acc = t } }` started at `acc = v`. -/
def foldMax (v : Int) (ts : List Int) : Int :=
  ts.foldl (fun a t => if a < t then t else a) v

theorem foldMin_le_init (v : Int) (ts : List Int) : foldMin v ts ≤ v := by
  induction ts generalizing v with
  | nil => simp [foldMin]
  | cons t r ih =>
    simp only [foldMin, List.foldl_cons]
    by_cases h : t < v
    · simp only [if_pos h]
      exact le_trans (ih t) (le_of_lt h)
    · simp only [if_neg h]
      exact ih v

theorem foldMin_le_mem (v : Int) (ts : List Int) : ∀ t ∈ ts, foldMin v ts ≤ t := by
  induction ts generalizing v with
  | nil => intro t ht; simp at ht
  | cons u r ih =>
    intro t ht
    simp only [List.mem_cons] at ht
    rcases ht with rfl | ht
    · simp only [foldMin, List.foldl_cons]
      by_cases h : t < v
      · simp only [if_pos h]
        exact foldMin_le_init t r
      · simp only [if_neg h]
        exact le_trans (foldMin_le_init v r) (le_of_not_lt h)
    · simp only [foldMin, List.foldl_cons]
      by_cases h : u < v
      · simp only [if_pos h]; exact ih u t ht
      · simp only [if_neg h]; exact ih v t ht

theorem foldMin_mem_or_init (v : Int) (ts : List Int) :
    foldMin v ts = v ∨ foldMin v ts ∈ ts := by
  induction ts generalizing v with
  | nil => left; simp [foldMin]
  | cons t r ih =>
    simp only [foldMin, List.foldl_cons]
    by_cases h : t < v
    · simp only [if_pos h]
      rcases ih t with h' | h'
      · right; simp [foldMin] at h'; simp [foldMin, h']
      · right; simp [foldMin] at h'; simp [foldMin, h']
    · simp only [if_neg h]
      rcases ih v with h' | h'
      · left; simpa [foldMin] using h'
      · right; simp [foldMin] at h'; simp [foldMin, h']

theorem foldMax_init_le (v : Int) (ts : List Int) : v ≤ foldMax v ts := by
  induction ts generalizing v with
  | nil => simp [foldMax]
  | cons t r ih =>
    simp only [foldMax, List.foldl_cons]
    by_cases h : v < t
    · simp only [if_pos h]
      exact le_trans (le_of_lt h) (ih t)
    · simp only [if_neg h]
      exact ih v

theorem foldMax_mem_le (v : Int) (ts : List Int) : ∀ t ∈ ts, t ≤ foldMax v ts := by
  induction ts generalizing v with
  | nil => intro t ht; simp at ht
  | cons u r ih =>
    intro t ht
    simp only [List.mem_cons] at ht
    rcases ht with rfl | ht
    · simp only [foldMax, List.foldl_cons]
      by_cases h : v < t
      · simp only [if_pos h]
        exact foldMax_init_le t r
      · simp only [if_neg h]
        exact le_trans (le_of_not_lt h) (foldMax_init_le v r)
    · simp only [foldMax, List.foldl_cons]
      by_cases h : v < u
      · simp only [if_pos h]; exact ih u t ht
      · simp only [if_neg h]; exact ih v t ht

theorem foldMax_mem_or_init (v : Int) (ts : List Int) :
    foldMax v ts = v ∨ foldMax v ts ∈ ts := by
  induction ts generalizing v with
  | nil => left; simp [foldMax]
  | cons t r ih =>
    simp only [foldMax, List.foldl_cons]
    by_cases h : v < t
    · simp only [if_pos h]
      rcases ih t with h' | h'
      · right; simp [foldMax] at h'; simp [foldMax, h']
      · right; simp [foldMax] at h'; simp [foldMax, h']
    · simp only [if_neg h]
      rcases ih v with h' | h'
      · left; simpa [foldMax] using h'
      · right; simp [foldMax] at h'; simp [foldMax, h']

/-! ### File cache (src/internal/cache/file_cache.go, src/unnamed/part_004)

The on-disk state is an association list from file path to the stored
`Entry` envelope.  `keyToFilename` (SHA-256 hashing plus sharding) is kept
abstract as a path function `h : String → String`; the serialization of the
user value is kept abstract as an encode/decode pair, since the code is
generic over `interface{\x7d` values marshalled with encoding/json. -/

namespace Cache

/-- Mirrors `cache.Entry`: `{data, expires_at (optional), created_at}`. -/
structure Entry where
  data : String
  expiresAt : Option Int
  createdAt : Int
deriving DecidableEq, Repr

/-- Mirrors `Entry.IsExpired`: false when `ExpiresAt` is nil, otherwise
`time.Now().After(*e.ExpiresAt)` (strict). -/
def Entry.IsExpired (e : Entry) (now : Int) : Bool :=
  match e.expiresAt with
  | none => false
  | some t => decide (t < now)

/-- The modelled base-directory contents: path ↦ entry envelope. -/
def FsState : Type := List (String × Entry)

/-- The single observable I/O failure in the model: `os.IsNotExist`. -/
inductive FsError where
  | notExist
deriving DecidableEq, Repr

/-- Model of `os.Remove`: fails with the not-exist error when the path is
absent, otherwise removes the file. -/
def osRemove (st : FsState) (p : String) : Except FsError Unit × FsState :=
  match assocLookup st p with
  | some _ => (Except.ok (), assocErase st p)
  | none => (Except.error FsError.notExist, st)

/-- Result of `FileCache.Get`: the cached value, `ErrCacheMiss`, or a
non-miss error (failed deserialization of the cached data). -/
inductive GetResult (α : Type) where
  | ok (v : α)
  | miss
  | err
deriving DecidableEq, Repr

/-- Mirrors `FileCache.Delete`: `os.Remove` on the key's file; a not-exist
error is swallowed (`err != nil && !os.IsNotExist(err)` is the only error
path), so deleting an absent key succeeds. -/
def Delete (h : String → String) (st : FsState) (k : String) :
    Except String Unit × FsState :=
  match osRemove st (h k) with
  | (Except.ok _, st2) => (Except.ok (), st2)
  | (Except.error FsError.notExist, st2) => (Except.ok (), st2)

/-- Mirrors `FileCache.Get`: read the entry at `h k`; absent file is a miss;
an expired entry is deleted and reported as a miss; otherwise the stored
data is decoded into the caller's value. -/
def Get (h : String → String) (dec : String → Option α) (now : Int)
    (st : FsState) (k : String) : GetResult α × FsState :=
  match assocLookup st (h k) with
  | none => (GetResult.miss, st)
  | some e =>
      if e.IsExpired now then
        (GetResult.miss, (Delete h st k).2)
      else
        match dec e.data with
        | some v => (GetResult.ok v, st)
        | none => (GetResult.err, st)

/-- Mirrors `FileCache.Set`: marshal the value, build an `Entry` whose
`ExpiresAt` is set only when `ttl > 0`, and write it at the key's path. -/
def Set (h : String → String) (enc : α → String) (now : Int) (st : FsState)
    (k : String) (v : α) (ttl : Int) : FsState :=
  let e : Entry :=
    { data := enc v
      createdAt := now
      expiresAt := if 0 < ttl then some (now + ttl) else none }
  assocSet st (h k) e

/-- One hour in nanoseconds (`time.Hour`). -/
def hourNs : Int := 3600000000000

end Cache

/-! ### Median (src/cmd/pr-tracker/main.go and src/cmd/deploy-tracker/main.go,
`calculateMedian` — the two copies are textually identical) -/

namespace Tracker

/-- Mirrors `calculateMedian`: sort ascending with `slices.Sort`, return 0 for
an empty slice, the middle element for odd length, and `(mid1 + mid2) / 2` for
even length — Go int64 addition (wrapping) and integer division (truncating
toward zero). -/
def calculateMedian (durations : List Int) : Int :=
  let n := durations.length
  if n = 0 then 0
  else
    let sorted := List.insertionSort (fun a b => a ≤ b) durations
    if n % 2 ≠ 0 then sorted.getD (n / 2) 0
    else
      let mid1 := sorted.getD (n / 2 - 1) 0
      let mid2 := sorted.getD (n / 2) 0
      Int.tdiv (wrap64 (mid1 + mid2)) 2

end Tracker

/-! ### Claims C7, C8, C10 — file cache behaviour -/

/-- C7 counterexample: `Set` with a negative TTL stores the entry WITHOUT an
expiry (the code only sets `ExpiresAt` when `ttl > 0`), so a much later `Get`
returns the value, not a miss — refuting the claim that a negative TTL
produces an entry that `Get` treats as expired. -/
theorem C7_counterexample :
    (Cache.Get (fun s => s) (fun s => some s) 1000000000
        (Cache.Set (fun s => s) (fun s => s) 0 ([] : Cache.FsState) ("k") ("v") (-1))
        ("k")).1 = Cache.GetResult.ok ("v") ∧
    Cache.GetResult.ok ("v") ≠ (Cache.GetResult.miss : Cache.GetResult String) := by
  constructor
  · rfl
  · intro hc
    exact Cache.GetResult.noConfusion hc

/-- C7 (amended): a stored entry whose `ExpiresAt` lies in the past makes
`Get` return a miss and removes the entry from the store (lazy expiry with
proactive deletion); but `Set` with `ttl ≤ 0` (including any negative TTL)
stores the entry with no expiry, so `Get` at any later time returns the
value rather than a miss. -/
theorem C7_cache_expiry_amended {α : Type} (h : String → String)
    (dec : String → Option α) (now : Int) (st : Cache.FsState) (k : String)
    (e : Cache.Entry) (hfound : assocLookup st (h k) = some e)
    (hexp : e.IsExpired now = true) :
    (Cache.Get h dec now st k).1 = Cache.GetResult.miss ∧
    assocLookup (Cache.Get h dec now st k).2 (h k) = none ∧
    ∀ (enc : α → String) (v : α) (ttl now2 : Int), ttl ≤ 0 → dec (enc v) = some v →
      (Cache.Get h dec now2 (Cache.Set h enc now st k v ttl) k).1
        = Cache.GetResult.ok v := by
  refine ⟨?_, ?_, ?_⟩
  · unfold Cache.Get
    rw [hfound]
    simp [hexp]
  · unfold Cache.Get
    rw [hfound]
    simp only [hexp, if_pos]
    unfold Cache.Delete Cache.osRemove
    rw [hfound]
    simp
  · intro enc v ttl now2 httl hcodec
    unfold Cache.Get Cache.Set
    simp only [assocLookup_set_self]
    have hnone : (if 0 < ttl then some (now + ttl) else none) = (none : Option Int) :=
      if_neg (by omega)
    simp [Cache.Entry.IsExpired, hnone, hcodec]

/-- C7 witness: a concrete pre-expired entry is reported as a miss and
removed from the store. -/
theorem C7_cache_expiry_witness :
    (Cache.Get (fun s => s) (fun s => some s) 5
        ([(("p"), ⟨("d"), some 0, 0⟩)] : Cache.FsState) ("p")).1
      = Cache.GetResult.miss ∧
    assocLookup
        (Cache.Get (fun s => s) (fun s => some s) 5
          ([(("p"), ⟨("d"), some 0, 0⟩)] : Cache.FsState) ("p")).2 ("p") = none := by
  have h := C7_cache_expiry_amended (fun s => s) (fun s => some s) 5
    ([(("p"), ⟨("d"), some 0, 0⟩)] : Cache.FsState) ("p") ⟨("d"), some 0, 0⟩
    (by rfl) (by decide)
  exact ⟨h.1, h.2.1⟩

/-- C8: `Set` with a 1-hour TTL followed by an immediate `Get` returns the
stored value with the store unchanged; and `Set` with `ttl ≤ 0` stores with
no expiry, so a `Get` at ANY later time still returns the value (never a
miss due to expiry). `dec (enc v) = some v` captures "serializable value". -/
theorem C8_cache_roundtrip {α : Type} (h : String → String) (enc : α → String)
    (dec : String → Option α) (now : Int) (st : Cache.FsState) (k : String)
    (v : α) (hcodec : dec (enc v) = some v) :
    Cache.Get h dec now (Cache.Set h enc now st k v Cache.hourNs) k
      = (Cache.GetResult.ok v, Cache.Set h enc now st k v Cache.hourNs) ∧
    ∀ ttl now2 : Int, ttl ≤ 0 →
      Cache.Get h dec now2 (Cache.Set h enc now st k v ttl) k
        = (Cache.GetResult.ok v, Cache.Set h enc now st k v ttl) := by
  constructor
  · unfold Cache.Get Cache.Set
    simp only [assocLookup_set_self]
    have hpos : (if 0 < Cache.hourNs then some (now + Cache.hourNs) else none)
        = some (now + Cache.hourNs) := if_pos (by norm_num [Cache.hourNs])
    have hexp : Cache.Entry.IsExpired
        ⟨enc v, some (now + Cache.hourNs), now⟩ now = false := by
      simp only [Cache.Entry.IsExpired, decide_eq_false_iff_not]
      norm_num [Cache.hourNs]
    simp [hpos, hexp, hcodec, Cache.Set]
  · intro ttl now2 httl
    unfold Cache.Get Cache.Set
    simp only [assocLookup_set_self]
    have hnone : (if 0 < ttl then some (now + ttl) else none) = (none : Option Int) :=
      if_neg (by omega)
    simp [hnone, Cache.Entry.IsExpired, hcodec, Cache.Set]

/-- C8 witness: a concrete round trip through the cache. -/
theorem C8_cache_roundtrip_witness :
    Cache.Get (fun s => s) (fun s => some s) 0
        (Cache.Set (fun s => s) (fun s => s) 0 ([] : Cache.FsState) ("k") ("v")
          Cache.hourNs) ("k")
      = (Cache.GetResult.ok ("v"),
         Cache.Set (fun s => s) (fun s => s) 0 ([] : Cache.FsState) ("k") ("v")
           Cache.hourNs) :=
  (C8_cache_roundtrip (fun s => s) (fun s => s) (fun s => some s) 0
    ([] : Cache.FsState) ("k") ("v") rfl).1

/-- C10: `Delete` on a key with no stored entry returns success and leaves
the store unchanged (the not-exist error from `os.Remove` is swallowed);
`Delete` always succeeds, and deleting the same key twice leaves the same
store as deleting it once. -/
theorem C10_delete_idempotent (h : String → String) (st : Cache.FsState)
    (k : String) :
    (assocLookup st (h k) = none → Cache.Delete h st k = (Except.ok (), st)) ∧
    (Cache.Delete h st k).1 = Except.ok () ∧
    Cache.Delete h ((Cache.Delete h st k).2) k
      = (Except.ok (), (Cache.Delete h st k).2) := by
  refine ⟨?_, ?_, ?_⟩
  · intro habs
    unfold Cache.Delete Cache.osRemove
    rw [habs]
  · unfold Cache.Delete Cache.osRemove
    cases hl : assocLookup st (h k) <;> simp
  · unfold Cache.Delete Cache.osRemove
    cases hl : assocLookup st (h k) with
    | none => rw [hl]
    | some e =>
      simp only [assocLookup_erase_self]

/-- C10 witness: deleting an absent key from the empty store succeeds and is
a no-op. -/
theorem C10_delete_witness :
    Cache.Delete (fun s => s) ([] : Cache.FsState) ("k")
      = (Except.ok (), ([] : Cache.FsState)) :=
  (C10_delete_idempotent (fun s => s) ([] : Cache.FsState) ("k")).1 rfl

/-! ### Claim C9 — median -/

/-- C9 counterexample: for the two-element duration list `[1ns, 2ns]` the
code returns 1ns, which is not the arithmetic mean 1.5ns of the two central
elements (twice the result differs from their sum), refuting "returns the
arithmetic mean of the two central elements" as a universal statement. -/
theorem C9_median_counterexample :
    Tracker.calculateMedian [1, 2] = 1 ∧
    2 * Tracker.calculateMedian [1, 2] ≠ 1 + 2 := by decide

/-- C9 (amended): `calculateMedian` returns 0 for the empty list; otherwise,
taking `s` to be the ascending sort of the input, it returns the middle
element of `s` for odd length, and for even length the Go int64 average
`(mid1 + mid2) / 2` of the two central elements — which, when the sum does
not overflow int64, is the truncated-toward-zero halving of the sum and
agrees with the exact arithmetic mean exactly when the sum is even (as in
the spec's `[1s,2s,3s,4s] → 2.5s` example, verified below together with
`[1s,3s,5s] → 3s`). -/
theorem C9_median_amended (l s : List Int) (hperm : s.Perm l)
    (hsort : s.Sorted (fun a b => a ≤ b)) :
    (l.length = 0 → Tracker.calculateMedian l = 0) ∧
    (l.length % 2 = 1 →
      Tracker.calculateMedian l = s.getD (l.length / 2) 0) ∧
    (l.length ≠ 0 → l.length % 2 = 0 →
      -i64Half ≤ s.getD (l.length / 2 - 1) 0 + s.getD (l.length / 2) 0 →
      s.getD (l.length / 2 - 1) 0 + s.getD (l.length / 2) 0 < i64Half →
      Tracker.calculateMedian l
          = Int.tdiv (s.getD (l.length / 2 - 1) 0 + s.getD (l.length / 2) 0) 2 ∧
        (2 ∣ s.getD (l.length / 2 - 1) 0 + s.getD (l.length / 2) 0 →
          2 * Tracker.calculateMedian l
            = s.getD (l.length / 2 - 1) 0 + s.getD (l.length / 2) 0)) ∧
    (Tracker.calculateMedian [1000000000, 3000000000, 5000000000] = 3000000000 ∧
     Tracker.calculateMedian [1000000000, 2000000000, 3000000000, 4000000000]
       = 2500000000) := by
  have hs : s = List.insertionSort (fun a b => a ≤ b) l :=
    List.eq_of_perm_of_sorted (hperm.trans (List.perm_insertionSort _ l).symm) hsort
      (List.sorted_insertionSort _ l)
  subst hs
  refine ⟨?_, ?_, ?_, by decide, by decide⟩
  · intro h0
    simp only [Tracker.calculateMedian]
    rw [if_pos h0]
  · intro hodd
    have h0 : l.length ≠ 0 := by omega
    simp only [Tracker.calculateMedian]
    rw [if_neg h0, if_pos (by omega)]
  · intro h0 heven h1 h2
    have hmid : Tracker.calculateMedian l
        = Int.tdiv (wrap64
            ((List.insertionSort (fun a b => a ≤ b) l).getD (l.length / 2 - 1) 0 +
             (List.insertionSort (fun a b => a ≤ b) l).getD (l.length / 2) 0)) 2 := by
      simp only [Tracker.calculateMedian]
      rw [if_neg h0, if_neg (by omega)]
    rw [hmid, wrap64_eq_of_range h1 h2]
    refine ⟨rfl, ?_⟩
    rintro ⟨c, hc⟩
    rw [hc, Int.mul_tdiv_cancel_left c (by norm_num)]

/-- C9 witness: the amended theorem applied to the concrete even-length list
`[10, 20, 30, 40]`, whose central sum 50 is even, gives median 25. -/
theorem C9_median_witness : Tracker.calculateMedian [10, 20, 30, 40] = 25 := by
  have h := (C9_median_amended [10, 20, 30, 40] [10, 20, 30, 40] (by decide)
    (by decide)).2.2.1 (by decide) (by decide) (by decide) (by decide)
  exact h.1.trans (by decide)

/-! ### Deployment correlator (src/unnamed/part_005 `GetReleaseFinishTime`,
src/internal/deploy/metrics.go `ProcessDeployments` / `CalculatePRDeploymentStats`) -/

namespace Deploy

/-- Rollout states from the Cloud Deploy API (`deploypb.Rollout_SUCCEEDED`
and the other, non-succeeded, states collapsed to representative names). -/
inductive RolloutState where
  | succeeded
  | failed
  | pending
  | inProgress
deriving DecidableEq, Repr

/-- A rollout: its state and its `DeployEndTime` (nil modelled as `none`). -/
structure Rollout where
  state : RolloutState
  deployEndTime : Option Int
deriving DecidableEq, Repr

/-- A release: its full resource name and its creation time.  The annotation
handling of `ExtractCommitSHAFromRelease` is not needed for these claims, so
the extraction outcome is passed in as a function. -/
structure Release where
  name : List Char
  createTime : Int
deriving DecidableEq, Repr

/-- Mirrors `DeployClient.GetReleaseFinishTime`: iterate the release's
rollouts; for each succeeded rollout with a non-nil `DeployEndTime`, record
that a completed rollout was found and keep the latest finish time
(`finishTime.After(latestFinishTime)`, starting from the zero time 0);
return an error (`none`) when no completed rollout was found. -/
def GetReleaseFinishTime (rollouts : List Rollout) : Option Int :=
  let acc := rollouts.foldl
    (fun (p : Bool × Int) ro =>
      if ro.state = RolloutState.succeeded then
        match ro.deployEndTime with
        | some t => (true, if p.2 < t then t else p.2)
        | none => p
      else p)
    (false, 0)
  if acc.1 then some acc.2 else none

/-- The `DeployEndTime`s of the succeeded rollouts — the values the Go loop
considers. -/
def succEnds (rollouts : List Rollout) : List Int :=
  rollouts.filterMap
    (fun ro => if ro.state = RolloutState.succeeded then ro.deployEndTime else none)

theorem rolloutFold_eq (rollouts : List Rollout) : ∀ b v,
    rollouts.foldl
      (fun (p : Bool × Int) ro =>
        if ro.state = RolloutState.succeeded then
          match ro.deployEndTime with
          | some t => (true, if p.2 < t then t else p.2)
          | none => p
        else p)
      (b, v)
    = (b || !(succEnds rollouts).isEmpty, foldMax v (succEnds rollouts)) := by
  induction rollouts with
  | nil => intro b v; simp [succEnds, foldMax]
  | cons ro rest ih =>
    intro b v
    by_cases hs : ro.state = RolloutState.succeeded
    · cases he : ro.deployEndTime with
      | none =>
        simp only [List.foldl_cons, hs, if_pos, he]
        rw [ih b v]
        have : succEnds (ro :: rest) = succEnds rest := by
          simp [succEnds, List.filterMap_cons, hs, he]
        rw [this]
      | some t =>
        simp only [List.foldl_cons, hs, if_pos, he]
        rw [ih true (if v < t then t else v)]
        have : succEnds (ro :: rest) = t :: succEnds rest := by
          simp [succEnds, List.filterMap_cons, hs, he]
        rw [this]
        simp [foldMax]
    · simp only [List.foldl_cons, hs, if_neg, ite_false]
      rw [ih b v]
      have : succEnds (ro :: rest) = succEnds rest := by
        simp [succEnds, List.filterMap_cons, hs]
      rw [this]

theorem GetReleaseFinishTime_eq (rollouts : List Rollout) :
    GetReleaseFinishTime rollouts
      = if (succEnds rollouts).isEmpty then none
        else some (foldMax 0 (succEnds rollouts)) := by
  unfold GetReleaseFinishTime
  rw [rolloutFold_eq rollouts false 0]
  cases h : (succEnds rollouts).isEmpty <;> simp [h]

/-- Mirrors `deploy.DeploymentMetric`. -/
structure DeploymentMetric where
  releaseID : List Char
  releaseName : List Char
  commitSHA : String
  prNumber : String
  commitTime : Int
  releaseStartTime : Int
  releaseFinishTime : Int
  commitToDeployLatency : Int
  deploymentSuccessful : Bool
deriving DecidableEq, Repr

/-- Mirrors `deploy.PRDeploymentStats`. -/
structure PRDeploymentStats where
  prNumber : String
  deploymentCount : Nat
  firstCommitTime : Int
  lastFinishTime : Int
  firstToLastDelta : Int
  commitSHAs : List String
  deployments : List DeploymentMetric
deriving DecidableEq, Repr

/-- `strings.Split` on a single separator character. -/
def splitOnChar (sep : Char) : List Char → List (List Char)
  | [] => [[]]
  | c :: r =>
      if c = sep then [] :: splitOnChar sep r
      else
        match splitOnChar sep r with
        | l :: ls => (c :: l) :: ls
        | [] => [[c]]

/-- The per-release body of `ProcessDeployments`: release ID from the last
path segment; skip the release when SHA extraction fails or when
`GetReleaseFinishTime` fails; otherwise emit one metric with
`successful = true` and latency `releaseFinishTime - commitTime`.
The two collaborator calls `ExtractCommitSHAFromRelease` (yielding
commit SHA, PR number, commit time) and the rollout listing are passed in
as functions. -/
def processOneRelease (extract : Release → Option (String × String × Int))
    (rolloutsOf : Release → List Rollout) (r : Release) :
    Option DeploymentMetric :=
  let releaseID := (splitOnChar '/' r.name).getLastD []
  match extract r with
  | none => none
  | some (sha, pr, ct) =>
      match GetReleaseFinishTime (rolloutsOf r) with
      | none => none
      | some ft =>
          some { releaseID := releaseID
                 releaseName := r.name
                 commitSHA := sha
                 prNumber := pr
                 commitTime := ct
                 releaseStartTime := r.createTime
                 releaseFinishTime := ft
                 commitToDeployLatency := timeSub ft ct
                 deploymentSuccessful := true }

/-- Mirrors `ProcessDeployments`: each release is processed independently
and contributes at most one metric. -/
def ProcessDeployments (extract : Release → Option (String × String × Int))
    (rolloutsOf : Release → List Rollout) (releases : List Release) :
    List DeploymentMetric :=
  releases.filterMap (processOneRelease extract rolloutsOf)

end Deploy

/-! ### Claim C5 — release finish time and skip-on-failure -/

/-- C5: with timestamps at or after the Go zero time (`0 ≤ t`),
`GetReleaseFinishTime` returns the maximum `DeployEndTime` over the
succeeded rollouts; when no rollout has succeeded it fails (`none`); a
release whose finish-time resolution fails contributes no metric while the
rest of the batch is processed unchanged; and any emitted metric's
`releaseFinishTime` is exactly the resolved finish time. -/
theorem C5_release_finish_time (rollouts : List Deploy.Rollout)
    (extract : Deploy.Release → Option (String × String × Int))
    (rolloutsOf : Deploy.Release → List Deploy.Rollout)
    (rels1 rels2 : List Deploy.Release) (r : Deploy.Release) :
    ((∀ ro ∈ rollouts, ro.state ≠ Deploy.RolloutState.succeeded) →
      Deploy.GetReleaseFinishTime rollouts = none) ∧
    (Deploy.succEnds rollouts ≠ [] → (∀ t ∈ Deploy.succEnds rollouts, 0 ≤ t) →
      ∃ M, Deploy.GetReleaseFinishTime rollouts = some M ∧
        M ∈ Deploy.succEnds rollouts ∧ ∀ t ∈ Deploy.succEnds rollouts, t ≤ M) ∧
    (∀ m, Deploy.processOneRelease extract rolloutsOf r = some m →
      Deploy.GetReleaseFinishTime (rolloutsOf r) = some m.releaseFinishTime) ∧
    (Deploy.GetReleaseFinishTime (rolloutsOf r) = none →
      Deploy.ProcessDeployments extract rolloutsOf (rels1 ++ r :: rels2)
        = Deploy.ProcessDeployments extract rolloutsOf rels1
          ++ Deploy.ProcessDeployments extract rolloutsOf rels2) := by
  refine ⟨?_, ?_, ?_, ?_⟩
  · intro hno
    have hnil : Deploy.succEnds rollouts = [] := by
      apply List.filterMap_eq_nil_iff.mpr
      intro ro hro
      rw [if_neg (hno ro hro)]
    rw [Deploy.GetReleaseFinishTime_eq, hnil]
    simp
  · intro hne h0
    rw [Deploy.GetReleaseFinishTime_eq,
      if_neg (by simpa [List.isEmpty_iff] using hne)]
    refine ⟨foldMax 0 (Deploy.succEnds rollouts), rfl, ?_,
      foldMax_mem_le 0 (Deploy.succEnds rollouts)⟩
    rcases foldMax_mem_or_init 0 (Deploy.succEnds rollouts) with hz | hy
    · obtain ⟨e, es, hes⟩ : ∃ e es, Deploy.succEnds rollouts = e :: es :=
        List.exists_cons_of_ne_nil hne
      have h1 : e ≤ foldMax 0 (Deploy.succEnds rollouts) :=
        foldMax_mem_le 0 _ e (by rw [hes]; exact List.mem_cons_self e es)
      have h2 : 0 ≤ e := h0 e (by rw [hes]; exact List.mem_cons_self e es)
      have : foldMax 0 (Deploy.succEnds rollouts) = e := by omega
      rw [this, hes]
      exact List.mem_cons_self e es
    · exact hy
  · intro m hm
    unfold Deploy.processOneRelease at hm
    cases hx : extract r with
    | none => rw [hx] at hm; simp at hm
    | some v =>
      obtain ⟨sha, pr, ct⟩ := v
      rw [hx] at hm
      cases hf : Deploy.GetReleaseFinishTime (rolloutsOf r) with
      | none => rw [hf] at hm; simp at hm
      | some ft =>
        rw [hf] at hm
        simp only [Option.some_inj] at hm
        rw [← hm]
  · intro hfail
    have hnone : Deploy.processOneRelease extract rolloutsOf r = none := by
      unfold Deploy.processOneRelease
      cases hx : extract r with
      | none => rfl
      | some v =>
        obtain ⟨sha, pr, ct⟩ := v
        rw [hfail]
    unfold Deploy.ProcessDeployments
    rw [List.filterMap_append, List.filterMap_cons, hnone]

/-- C5 witness: a release with one succeeded rollout (end time 5) and one
failed rollout resolves to finish time 5; a release with only non-succeeded
rollouts is skipped while its batch neighbours survive. -/
theorem C5_release_finish_time_witness :
    (∃ M, Deploy.GetReleaseFinishTime
        [⟨Deploy.RolloutState.succeeded, some 5⟩,
         ⟨Deploy.RolloutState.failed, some 9⟩] = some M ∧
      M ∈ Deploy.succEnds
        [⟨Deploy.RolloutState.succeeded, some 5⟩,
         ⟨Deploy.RolloutState.failed, some 9⟩] ∧
      ∀ t ∈ Deploy.succEnds
        [⟨Deploy.RolloutState.succeeded, some 5⟩,
         ⟨Deploy.RolloutState.failed, some 9⟩], t ≤ M) ∧
    Deploy.GetReleaseFinishTime [⟨Deploy.RolloutState.failed, some 9⟩] = none := by
  constructor
  · exact (C5_release_finish_time
      [⟨Deploy.RolloutState.succeeded, some 5⟩,
       ⟨Deploy.RolloutState.failed, some 9⟩]
      (fun _ => none) (fun _ => []) [] [] ⟨[], 0⟩).2.1 (by decide) (by decide)
  · exact (C5_release_finish_time [⟨Deploy.RolloutState.failed, some 9⟩]
      (fun _ => none) (fun _ => []) [] [] ⟨[], 0⟩).1 (by decide)

/-! ### PR deployment grouping (`CalculatePRDeploymentStats`)

Go's `map[string][]DeploymentMetric` is modelled as an association list in
first-insertion order; Go map iteration order is unspecified, and the claim
only concerns membership and sizes, which are order-independent. -/

namespace Deploy

/-- `prMap[key] = append(prMap[key], d)` on the association-list model. -/
def insertGroup : List (String × List DeploymentMetric) → String →
    DeploymentMetric → List (String × List DeploymentMetric)
  | [], k, d => [(k, [d])]
  | (k', g) :: rest, k, d =>
      if k' = k then (k', g ++ [d]) :: rest
      else (k', g) :: insertGroup rest k d

/-- The grouping loop of `CalculatePRDeploymentStats`: metrics with an empty
`PRNumber` are not grouped. -/
def groupByPR (ds : List DeploymentMetric) :
    List (String × List DeploymentMetric) :=
  ds.foldl
    (fun m d => if d.prNumber = ("") then m else insertGroup m d.prNumber d) []

/-- The `commitSHASet` map of the Go code: the distinct commit SHAs of a
group (modelled in first-occurrence order; Go iterates the set in
unspecified order). -/
def dedupSHAs (g : List DeploymentMetric) : List String :=
  g.foldl (fun acc d => if d.commitSHA ∈ acc then acc else acc ++ [d.commitSHA]) []

/-- The per-group statistics computation of `CalculatePRDeploymentStats`:
min commit time and max finish time via the Go loops seeded with the first
element, delta via `time.Time.Sub`, distinct SHAs, full deployment list. -/
def mkStats (p : String) (g : List DeploymentMetric) : PRDeploymentStats :=
  let cts := g.map (fun d => d.commitTime)
  let fts := g.map (fun d => d.releaseFinishTime)
  let firstCommitTime := foldMin (cts.headD 0) cts
  let lastFinishTime := foldMax (fts.headD 0) fts
  { prNumber := p
    deploymentCount := g.length
    firstCommitTime := firstCommitTime
    lastFinishTime := lastFinishTime
    firstToLastDelta := timeSub lastFinishTime firstCommitTime
    commitSHAs := dedupSHAs g
    deployments := g }

/-- Mirrors `CalculatePRDeploymentStats`: group by non-empty PR number, then
emit one `PRDeploymentStats` per group (the `len == 0` guard of the loop is
kept although groups are never empty). -/
def CalculatePRDeploymentStats (ds : List DeploymentMetric) :
    List PRDeploymentStats :=
  (groupByPR ds).filterMap
    (fun kg => if kg.2.isEmpty then none else some (mkStats kg.1 kg.2))

theorem lookup_insertGroup_self (m : List (String × List DeploymentMetric))
    (k : String) (d : DeploymentMetric) :
    assocLookup (insertGroup m k d) k
      = some ((assocLookup m k).getD [] ++ [d]) := by
  induction m with
  | nil => simp [insertGroup, assocLookup]
  | cons kv rest ih =>
    obtain ⟨k', g⟩ := kv
    by_cases h : k' = k
    · subst h
      simp [insertGroup, assocLookup]
    · simp [insertGroup, assocLookup, h, ih]

theorem lookup_insertGroup_other (m : List (String × List DeploymentMetric))
    (k p : String) (d : DeploymentMetric) (hne : k ≠ p) :
    assocLookup (insertGroup m k d) p = assocLookup m p := by
  induction m with
  | nil => simp [insertGroup, assocLookup, hne]
  | cons kv rest ih =>
    obtain ⟨k', g⟩ := kv
    by_cases h : k' = k
    · subst h
      simp [insertGroup, assocLookup, hne, ih]
    · by_cases h2 : k' = p
      · simp only [insertGroup, if_neg h]
        simp [assocLookup, h2]
      · simp [insertGroup, assocLookup, h, h2, ih]

/-- Combination of a partial lookup result with the remaining filtered
suffix, used to state the grouping-fold characterization. -/
def mergeOpt : Option (List DeploymentMetric) → List DeploymentMetric →
    Option (List DeploymentMetric)
  | none, [] => none
  | none, d :: l => some (d :: l)
  | some g, l => some (g ++ l)

theorem groupFold_lookup (p : String) (hp : p ≠ ("")) :
    ∀ (ds : List DeploymentMetric) (m : List (String × List DeploymentMetric)),
    assocLookup
        (ds.foldl
          (fun m d => if d.prNumber = ("") then m else insertGroup m d.prNumber d)
          m) p
      = mergeOpt (assocLookup m p)
          (ds.filter (fun d => decide (d.prNumber = p))) := by
  intro ds
  induction ds with
  | nil =>
    intro m
    simp only [List.foldl_nil, List.filter_nil]
    cases h : assocLookup m p <;> simp [mergeOpt]
  | cons d rest ih =>
    intro m
    by_cases hd : d.prNumber = ("")
    · have hdp : ¬ d.prNumber = p := by rw [hd]; exact fun hc => hp hc.symm
      have hfil : (d :: rest).filter (fun x => decide (x.prNumber = p))
          = rest.filter (fun x => decide (x.prNumber = p)) := by
        simp [List.filter_cons, hdp]
      rw [List.foldl_cons, if_pos hd, ih m, hfil]
    · by_cases hdp : d.prNumber = p
      · have hfil : (d :: rest).filter (fun x => decide (x.prNumber = p))
            = d :: rest.filter (fun x => decide (x.prNumber = p)) := by
          simp [List.filter_cons, hdp]
        rw [List.foldl_cons, if_neg hd, ih (insertGroup m d.prNumber d), hfil,
          hdp, lookup_insertGroup_self]
        cases hm : assocLookup m p with
        | none =>
          simp only [Option.getD_none, List.nil_append]
          cases hrest : rest.filter (fun x => decide (x.prNumber = p)) <;>
            simp [mergeOpt]
        | some g =>
          simp only [Option.getD_some]
          cases hrest : rest.filter (fun x => decide (x.prNumber = p)) <;>
            simp [mergeOpt]
      · have hfil : (d :: rest).filter (fun x => decide (x.prNumber = p))
            = rest.filter (fun x => decide (x.prNumber = p)) := by
          simp [List.filter_cons, hdp]
        rw [List.foldl_cons, if_neg hd, ih (insertGroup m d.prNumber d),
          lookup_insertGroup_other m d.prNumber p d hdp, hfil]

end Deploy


namespace Deploy

/-- Invariant of the grouping map: keys are distinct, no key is the empty
PR number, and every group is nonempty. -/
def goodGroups (m : List (String × List DeploymentMetric)) : Prop :=
  (m.map Prod.fst).Nodup ∧ ∀ kg ∈ m, kg.1 ≠ ("") ∧ kg.2 ≠ []

theorem keys_insertGroup (m : List (String × List DeploymentMetric))
    (k : String) (d : DeploymentMetric) :
    (insertGroup m k d).map Prod.fst
      = if k ∈ m.map Prod.fst then m.map Prod.fst
        else m.map Prod.fst ++ [k] := by
  induction m with
  | nil => simp [insertGroup]
  | cons kv rest ih =>
    obtain ⟨k', g⟩ := kv
    by_cases h : k' = k
    · subst h
      simp [insertGroup]
    · have hne : k ≠ k' := fun hc => h hc.symm
      simp only [insertGroup, if_neg h, List.map_cons]
      rw [ih]
      by_cases hmem : k ∈ rest.map Prod.fst
      · rw [if_pos hmem, if_pos (by simp [List.mem_cons, hmem])]
      · rw [if_neg hmem, if_neg (by simp [List.mem_cons, hne, hmem])]
        simp

theorem mem_insertGroup (m : List (String × List DeploymentMetric))
    (k : String) (d : DeploymentMetric)
    (kg : String × List DeploymentMetric) (hkg : kg ∈ insertGroup m k d) :
    kg ∈ m ∨ (kg.1 = k ∧ kg.2 ≠ []) := by
  induction m with
  | nil =>
    simp only [insertGroup, List.mem_singleton] at hkg
    subst hkg
    exact Or.inr ⟨rfl, by simp⟩
  | cons kv rest ih =>
    obtain ⟨k', g⟩ := kv
    by_cases h : k' = k
    · subst h
      simp only [insertGroup, if_pos rfl] at hkg
      rcases List.mem_cons.mp hkg with hkg | hkg
      · refine Or.inr ⟨?_, ?_⟩
        · rw [hkg]
        · rw [hkg]; simp
      · exact Or.inl (List.mem_cons_of_mem _ hkg)
    · simp only [insertGroup, if_neg h] at hkg
      rcases List.mem_cons.mp hkg with hkg | hkg
      · rw [hkg]; exact Or.inl (List.mem_cons_self _ _)
      · rcases ih hkg with hin | hkey
        · exact Or.inl (List.mem_cons_of_mem _ hin)
        · exact Or.inr hkey

theorem goodGroups_insertGroup (m : List (String × List DeploymentMetric))
    (k : String) (d : DeploymentMetric) (hm : goodGroups m) (hk : k ≠ ("")) :
    goodGroups (insertGroup m k d) := by
  obtain ⟨hnd, hent⟩ := hm
  constructor
  · rw [keys_insertGroup]
    by_cases hmem : k ∈ m.map Prod.fst
    · simpa [hmem] using hnd
    · simp only [hmem, if_neg, ite_false]
      simp [List.nodup_append, hnd, hmem]
  · intro kg hkg
    rcases mem_insertGroup m k d kg hkg with hin | ⟨hkey, hne⟩
    · exact hent kg hin
    · exact ⟨hkey ▸ hk, hne⟩

theorem goodGroups_groupFold :
    ∀ (ds : List DeploymentMetric) (m : List (String × List DeploymentMetric)),
    goodGroups m →
    goodGroups
      (ds.foldl
        (fun m d => if d.prNumber = ("") then m else insertGroup m d.prNumber d)
        m) := by
  intro ds
  induction ds with
  | nil => intro m hm; simpa using hm
  | cons d rest ih =>
    intro m hm
    rw [List.foldl_cons]
    by_cases hd : d.prNumber = ("")
    · rw [if_pos hd]; exact ih m hm
    · rw [if_neg hd]
      exact ih _ (goodGroups_insertGroup m d.prNumber d hm hd)

theorem goodGroups_groupByPR (ds : List DeploymentMetric) :
    goodGroups (groupByPR ds) :=
  goodGroups_groupFold ds [] ⟨List.nodup_nil, by simp⟩

theorem mem_of_lookup (m : List (String × List DeploymentMetric)) (k : String)
    (g : List DeploymentMetric) (h : assocLookup m k = some g) : (k, g) ∈ m := by
  induction m with
  | nil => simp [assocLookup] at h
  | cons kv rest ih =>
    obtain ⟨k', v'⟩ := kv
    by_cases he : k' = k
    · subst he
      have hv : v' = g := by simpa [assocLookup] using h
      subst hv
      exact List.mem_cons_self _ _
    · have h' : assocLookup rest k = some g := by simpa [assocLookup, he] using h
      exact List.mem_cons_of_mem _ (ih h')

theorem lookup_of_mem (m : List (String × List DeploymentMetric))
    (hnd : (m.map Prod.fst).Nodup) (k : String) (g : List DeploymentMetric)
    (hm : (k, g) ∈ m) : assocLookup m k = some g := by
  induction m with
  | nil => simp at hm
  | cons kv rest ih =>
    obtain ⟨k', v'⟩ := kv
    simp only [List.map_cons, List.nodup_cons] at hnd
    rcases List.mem_cons.mp hm with he | hmem
    · cases he.symm
      simp [assocLookup]
    · have hk : k' ≠ k := by
        intro hc
        subst hc
        exact hnd.1 (List.mem_map.mpr ⟨(k', g), hmem, rfl⟩)
      simp only [assocLookup, if_neg hk]
      exact ih hnd.2 hmem

theorem dedupFold_spec :
    ∀ (g : List DeploymentMetric) (acc : List String), acc.Nodup →
    (g.foldl (fun a d => if d.commitSHA ∈ a then a else a ++ [d.commitSHA]) acc).Nodup ∧
    ∀ s, s ∈ g.foldl (fun a d => if d.commitSHA ∈ a then a else a ++ [d.commitSHA]) acc
      ↔ s ∈ acc ∨ s ∈ g.map (fun d => d.commitSHA) := by
  intro g
  induction g with
  | nil =>
    intro acc hacc
    exact ⟨hacc, fun s => by simp⟩
  | cons d rest ih =>
    intro acc hacc
    by_cases hmem : d.commitSHA ∈ acc
    · rw [List.foldl_cons, if_pos hmem]
      obtain ⟨h1, h2⟩ := ih acc hacc
      refine ⟨h1, fun s => ?_⟩
      rw [h2 s]
      constructor
      · rintro (hs | hs)
        · exact Or.inl hs
        · rw [List.map_cons]
          exact Or.inr (List.mem_cons_of_mem _ hs)
      · rintro (hs | hs)
        · exact Or.inl hs
        · rw [List.map_cons] at hs
          rcases List.mem_cons.mp hs with heq | hs2
          · rw [heq]; exact Or.inl hmem
          · exact Or.inr hs2
    · rw [List.foldl_cons, if_neg hmem]
      have hacc2 : (acc ++ [d.commitSHA]).Nodup := by
        simp [List.nodup_append, hacc, hmem]
      obtain ⟨h1, h2⟩ := ih (acc ++ [d.commitSHA]) hacc2
      refine ⟨h1, fun s => ?_⟩
      rw [h2 s]
      constructor
      · rintro (hs | hs)
        · rcases List.mem_append.mp hs with hin | hin
          · exact Or.inl hin
          · rw [List.mem_singleton] at hin
            rw [List.map_cons, hin]
            exact Or.inr (List.mem_cons_self _ _)
        · rw [List.map_cons]
          exact Or.inr (List.mem_cons_of_mem _ hs)
      · rintro (hs | hs)
        · exact Or.inl (List.mem_append.mpr (Or.inl hs))
        · rw [List.map_cons] at hs
          rcases List.mem_cons.mp hs with heq | hs2
          · exact Or.inl (List.mem_append.mpr
              (Or.inr (by rw [heq]; exact List.mem_singleton.mpr rfl)))
          · exact Or.inr hs2

theorem mkStats_spec (p : String) (g : List DeploymentMetric) (hg : g ≠ []) :
    (mkStats p g).prNumber = p ∧
    (mkStats p g).deploymentCount = g.length ∧
    (mkStats p g).deployments = g ∧
    (mkStats p g).firstCommitTime ∈ g.map (fun d => d.commitTime) ∧
    (∀ t ∈ g.map (fun d => d.commitTime), (mkStats p g).firstCommitTime ≤ t) ∧
    (mkStats p g).lastFinishTime ∈ g.map (fun d => d.releaseFinishTime) ∧
    (∀ t ∈ g.map (fun d => d.releaseFinishTime), t ≤ (mkStats p g).lastFinishTime) ∧
    (mkStats p g).firstToLastDelta
      = timeSub (mkStats p g).lastFinishTime (mkStats p g).firstCommitTime ∧
    (mkStats p g).commitSHAs.Nodup ∧
    ∀ s, s ∈ (mkStats p g).commitSHAs ↔ s ∈ g.map (fun d => d.commitSHA) := by
  obtain ⟨d0, g', rfl⟩ := List.exists_cons_of_ne_nil hg
  have hfc : (mkStats p (d0 :: g')).firstCommitTime
      = foldMin d0.commitTime ((d0 :: g').map (fun d => d.commitTime)) := by
    simp [mkStats]
  have hlf : (mkStats p (d0 :: g')).lastFinishTime
      = foldMax d0.releaseFinishTime ((d0 :: g').map (fun d => d.releaseFinishTime)) := by
    simp [mkStats]
  have hsha := dedupFold_spec (d0 :: g') [] List.nodup_nil
  have hshaEq : (mkStats p (d0 :: g')).commitSHAs
      = (d0 :: g').foldl
          (fun a d => if d.commitSHA ∈ a then a else a ++ [d.commitSHA]) [] := rfl
  refine ⟨rfl, rfl, rfl, ?_, ?_, ?_, ?_, rfl, ?_, fun s => ?_⟩
  · rw [hfc]
    rcases foldMin_mem_or_init d0.commitTime
        ((d0 :: g').map (fun d => d.commitTime)) with hc | hc
    · rw [hc]; simp
    · exact hc
  · intro t ht
    rw [hfc]
    exact foldMin_le_mem _ _ t ht
  · rw [hlf]
    rcases foldMax_mem_or_init d0.releaseFinishTime
        ((d0 :: g').map (fun d => d.releaseFinishTime)) with hc | hc
    · rw [hc]; simp
    · exact hc
  · intro t ht
    rw [hlf]
    exact foldMax_mem_le _ _ t ht
  · rw [hshaEq]; exact hsha.1
  · rw [hshaEq, hsha.2 s]
    simp

end Deploy

namespace Deploy

theorem stats_map_pr (m : List (String × List DeploymentMetric))
    (hent : ∀ kg ∈ m, kg.2 ≠ []) :
    (m.filterMap
        (fun kg => if kg.2.isEmpty then none else some (mkStats kg.1 kg.2))).map
        (fun st => st.prNumber)
      = m.map Prod.fst := by
  induction m with
  | nil => simp
  | cons kg rest ih =>
    have hb : kg.2.isEmpty = false := by
      rcases List.exists_cons_of_ne_nil (hent kg (List.mem_cons_self _ _)) with
        ⟨x, xs, hxx⟩
      rw [hxx]; rfl
    rw [List.filterMap_cons]
    simp only [hb, Bool.false_eq_true, if_neg, ite_false, List.map_cons]
    rw [ih (fun kg2 hkg2 => hent kg2 (List.mem_cons_of_mem _ hkg2))]
    rfl

theorem stats_elim (ds : List DeploymentMetric) (st : PRDeploymentStats)
    (hst : st ∈ CalculatePRDeploymentStats ds) :
    st.prNumber ≠ ("") ∧
    ds.filter (fun d => decide (d.prNumber = st.prNumber)) ≠ [] ∧
    st = mkStats st.prNumber
      (ds.filter (fun d => decide (d.prNumber = st.prNumber))) := by
  obtain ⟨hnd, hent⟩ := goodGroups_groupByPR ds
  obtain ⟨kg, hkgmem, hkgeq⟩ := List.mem_filterMap.mp hst
  have hne : kg.2 ≠ [] := (hent kg hkgmem).2
  have hb : kg.2.isEmpty = false := by
    rcases List.exists_cons_of_ne_nil hne with ⟨x, xs, hxx⟩
    rw [hxx]; rfl
  rw [hb] at hkgeq
  simp only [Bool.false_eq_true, if_neg, ite_false, Option.some_inj] at hkgeq
  have hk1 : kg.1 ≠ ("") := (hent kg hkgmem).1
  have hlk : assocLookup (groupByPR ds) kg.1 = some kg.2 :=
    lookup_of_mem _ hnd kg.1 kg.2 hkgmem
  have hfold := groupFold_lookup kg.1 hk1 ds []
  unfold groupByPR at hlk
  rw [hfold] at hlk
  simp only [assocLookup] at hlk
  cases hfil : ds.filter (fun d => decide (d.prNumber = kg.1)) with
  | nil =>
    rw [hfil] at hlk
    simp [mergeOpt] at hlk
  | cons x xs =>
    rw [hfil] at hlk
    simp only [mergeOpt, Option.some_inj] at hlk
    have hpr : st.prNumber = kg.1 := by rw [← hkgeq]; rfl
    refine ⟨hpr ▸ hk1, ?_, ?_⟩
    · rw [hpr, hfil]
      simp
    · rw [hpr, hfil, hlk]
      exact hkgeq.symm

theorem stats_intro (ds : List DeploymentMetric) (p : String) (hp : p ≠ (""))
    (hne : ds.filter (fun d => decide (d.prNumber = p)) ≠ []) :
    mkStats p (ds.filter (fun d => decide (d.prNumber = p)))
      ∈ CalculatePRDeploymentStats ds := by
  have hfold := groupFold_lookup p hp ds []
  obtain ⟨x, xs, hfil⟩ := List.exists_cons_of_ne_nil hne
  have hlk : assocLookup (groupByPR ds) p
      = some (ds.filter (fun d => decide (d.prNumber = p))) := by
    unfold groupByPR
    rw [hfold]
    simp only [assocLookup]
    rw [hfil]
    simp [mergeOpt]
  have hmem : (p, ds.filter (fun d => decide (d.prNumber = p))) ∈ groupByPR ds :=
    mem_of_lookup _ p _ hlk
  apply List.mem_filterMap.mpr
  refine ⟨(p, ds.filter (fun d => decide (d.prNumber = p))), hmem, ?_⟩
  have hb : (ds.filter (fun d => decide (d.prNumber = p))).isEmpty = false := by
    rw [hfil]; rfl
  simp only [hb, Bool.false_eq_true, if_neg, ite_false]

end Deploy

/-- The four-metric example of the claim: two metrics with PR "123", one
with PR "456", one with an empty PR number. -/
def exampleDeployments : List Deploy.DeploymentMetric :=
  [ { releaseID := [], releaseName := [], commitSHA := ("s1"),
      prNumber := ("123"), commitTime := 10, releaseStartTime := 12,
      releaseFinishTime := 20, commitToDeployLatency := 10,
      deploymentSuccessful := true },
    { releaseID := [], releaseName := [], commitSHA := ("s2"),
      prNumber := ("456"), commitTime := 11, releaseStartTime := 13,
      releaseFinishTime := 21, commitToDeployLatency := 10,
      deploymentSuccessful := true },
    { releaseID := [], releaseName := [], commitSHA := ("s3"),
      prNumber := ("123"), commitTime := 12, releaseStartTime := 14,
      releaseFinishTime := 22, commitToDeployLatency := 10,
      deploymentSuccessful := true },
    { releaseID := [], releaseName := [], commitSHA := ("s4"),
      prNumber := (""), commitTime := 13, releaseStartTime := 15,
      releaseFinishTime := 23, commitToDeployLatency := 10,
      deploymentSuccessful := true } ]

/-- C6: `CalculatePRDeploymentStats` produces one group per distinct
non-empty PR number (empty-PR metrics belong to no group); each group's
deployments are exactly the input metrics with that PR number, with
`DeploymentCount` the group size, `FirstCommitTime`/`LastFinishTime` the
attained minimum commit time / maximum finish time of the group,
`FirstToLastDelta` their difference (`time.Time.Sub`), and `CommitSHAs` the
distinct SHAs of the group (no duplicates; membership exactly the group's
SHAs); on the claim's four-metric example it yields exactly the groups
("123", 2) and ("456", 1). -/
theorem C6_pr_deployment_grouping (ds : List Deploy.DeploymentMetric) :
    ((Deploy.CalculatePRDeploymentStats ds).map (fun st => st.prNumber)).Nodup ∧
    (∀ p, (∃ st ∈ Deploy.CalculatePRDeploymentStats ds, st.prNumber = p) ↔
      (p ≠ ("") ∧ ∃ d ∈ ds, d.prNumber = p)) ∧
    (∀ st ∈ Deploy.CalculatePRDeploymentStats ds,
      st.deployments = ds.filter (fun d => decide (d.prNumber = st.prNumber)) ∧
      st.deploymentCount = st.deployments.length ∧
      st.firstCommitTime ∈ st.deployments.map (fun d => d.commitTime) ∧
      (∀ t ∈ st.deployments.map (fun d => d.commitTime), st.firstCommitTime ≤ t) ∧
      st.lastFinishTime ∈ st.deployments.map (fun d => d.releaseFinishTime) ∧
      (∀ t ∈ st.deployments.map (fun d => d.releaseFinishTime),
        t ≤ st.lastFinishTime) ∧
      st.firstToLastDelta = timeSub st.lastFinishTime st.firstCommitTime ∧
      st.commitSHAs.Nodup ∧
      (∀ s, s ∈ st.commitSHAs ↔ s ∈ st.deployments.map (fun d => d.commitSHA))) ∧
    (Deploy.CalculatePRDeploymentStats exampleDeployments).map
        (fun st => (st.prNumber, st.deploymentCount)) = [(("123"), 2), (("456"), 1)] := by
  obtain ⟨hnd, hent⟩ := Deploy.goodGroups_groupByPR ds
  refine ⟨?_, ?_, ?_, by decide⟩
  · have hkeys := Deploy.stats_map_pr (Deploy.groupByPR ds)
      (fun kg hkg => (hent kg hkg).2)
    exact hkeys ▸ hnd
  · intro p
    constructor
    · rintro ⟨st, hst, rfl⟩
      obtain ⟨hp, hne, hrep⟩ := Deploy.stats_elim ds st hst
      refine ⟨hp, ?_⟩
      obtain ⟨x, xs, hfil⟩ := List.exists_cons_of_ne_nil hne
      have hx : x ∈ ds.filter (fun d => decide (d.prNumber = st.prNumber)) := by
        rw [hfil]; exact List.mem_cons_self _ _
      obtain ⟨hxin, hxp⟩ := List.mem_filter.mp hx
      exact ⟨x, hxin, of_decide_eq_true hxp⟩
    · rintro ⟨hp, d, hd, hdp⟩
      have hne : ds.filter (fun x => decide (x.prNumber = p)) ≠ [] := by
        intro hc
        have : d ∈ ds.filter (fun x => decide (x.prNumber = p)) :=
          List.mem_filter.mpr ⟨hd, by simp [hdp]⟩
        rw [hc] at this
        simp at this
      exact ⟨Deploy.mkStats p (ds.filter (fun x => decide (x.prNumber = p))),
        Deploy.stats_intro ds p hp hne, rfl⟩
  · intro st hst
    obtain ⟨hp, hne, hrep⟩ := Deploy.stats_elim ds st hst
    obtain ⟨h1, h2, h3, h4, h5, h6, h7, h8, h9, h10⟩ :=
      Deploy.mkStats_spec st.prNumber
        (ds.filter (fun d => decide (d.prNumber = st.prNumber))) hne
    rw [← hrep] at h1 h2 h3 h4 h5 h6 h7 h8 h9 h10
    exact ⟨h3, by rw [h3, h2], h3 ▸ h4, h3 ▸ h5, h3 ▸ h6, h3 ▸ h7, h8, h9, h3 ▸ h10⟩

/-- C6 witness: applying the theorem to the four-metric example shows the
group for "123" exists, and the group for the empty PR number does not. -/
theorem C6_pr_deployment_grouping_witness :
    (∃ st ∈ Deploy.CalculatePRDeploymentStats exampleDeployments,
      st.prNumber = ("123")) ∧
    ¬ (∃ st ∈ Deploy.CalculatePRDeploymentStats exampleDeployments,
      st.prNumber = ("")) := by
  constructor
  · exact ((C6_pr_deployment_grouping exampleDeployments).2.1 ("123")).mpr
      ⟨by decide, exampleDeployments.headD
        { releaseID := [], releaseName := [], commitSHA := ("x"),
          prNumber := ("x"), commitTime := 0, releaseStartTime := 0,
          releaseFinishTime := 0, commitToDeployLatency := 0,
          deploymentSuccessful := true }, by decide, by decide⟩
  · intro hc
    obtain ⟨hemp, _⟩ :=
      ((C6_pr_deployment_grouping exampleDeployments).2.1 ("")).mp hc
    exact hemp rfl

/-! ### Commit-reference matcher and PR review correlator
(src/internal/github/metrics.go, src/unnamed/part_005)

The Go regular expressions are hand-compiled into deterministic matchers.
All character classes are RE2's ASCII Perl classes.  Each pattern is a
concatenation of pieces whose adjacent character classes are disjoint
(spaces / word chars / `:` / literals / digits / `_` / hex), so greedy
deterministic consumption is equivalent to the regex engine's search at a
given position; the leading `\+` anchors every candidate position at a `+`
character, which the scanners enumerate left to right (leftmost match
first, as `FindStringSubmatch` does). -/

namespace Github

/-- RE2 `\w` (ASCII): `[0-9A-Za-z_]`. -/
def isWordChar (c : Char) : Bool := c.isAlphanum || c = '_'

/-- RE2 `\s` (ASCII): `[\t\n\f\r ]`. -/
def isSpaceChar (c : Char) : Bool :=
  c = ' ' || c = '\t' || c = '\n' || c = '\x0c' || c = '\r'

/-- The `[a-f0-9]` class of the SHA patterns. -/
def isHexDigit (c : Char) : Bool := c.isDigit || (('a' ≤ c) && (c ≤ 'f'))

/-- Fuel-driven digit emitter (structural recursion, so that concrete
instances evaluate inside the kernel). -/
def natDigitsCore : Nat → Nat → List Char → List Char
  | 0, _, acc => acc
  | fuel + 1, n, acc =>
      if n < 10 then Nat.digitChar n :: acc
      else natDigitsCore fuel (n / 10) (Nat.digitChar (n % 10) :: acc)

/-- `strconv.Itoa` for a non-negative PR number: decimal digits. -/
def natDigits (n : Nat) : List Char := natDigitsCore (n + 1) n []

/-- Recursive characterization of `natDigits`, used for reasoning. -/
def natDigitsR (n : Nat) : List Char :=
  if n < 10 then [Nat.digitChar n]
  else natDigitsR (n / 10) ++ [Nat.digitChar (n % 10)]
termination_by n
decreasing_by
  exact Nat.div_lt_self (by omega) (by omega)

theorem natDigitsCore_spec :
    ∀ (fuel n : Nat) (acc : List Char), n < fuel →
    natDigitsCore fuel n acc = natDigitsR n ++ acc := by
  intro fuel
  induction fuel with
  | zero => intro n acc h; omega
  | succ fuel ih =>
    intro n acc h
    by_cases hn : n < 10
    · rw [natDigitsCore, if_pos hn, natDigitsR, if_pos hn]
      rfl
    · rw [natDigitsCore, if_neg hn, natDigitsR, if_neg hn,
        ih (n / 10) _ (by omega), List.append_assoc]
      rfl

theorem natDigits_eq_r (n : Nat) : natDigits n = natDigitsR n := by
  rw [natDigits, natDigitsCore_spec (n + 1) n [] (by omega), List.append_nil]

/-- Decimal value of a digit string (left inverse of `natDigits`). -/
def parseDigits (ds : List Char) : Nat :=
  ds.foldl (fun a c => 10 * a + (c.toNat - 48)) 0

theorem digitChar_isDigit {k : Nat} (hk : k < 10) :
    (Nat.digitChar k).isDigit = true := by
  interval_cases k <;> decide

theorem digitChar_toNat {k : Nat} (hk : k < 10) :
    (Nat.digitChar k).toNat = 48 + k := by
  interval_cases k <;> decide

theorem natDigitsR_all_digit (n : Nat) :
    ∀ c ∈ natDigitsR n, c.isDigit = true := by
  induction n using Nat.strong_induction_on with
  | _ n ih =>
    intro c hc
    rw [natDigitsR] at hc
    split at hc
    · next h =>
      simp only [List.mem_singleton] at hc
      rw [hc]
      exact digitChar_isDigit h
    · next h =>
      rcases List.mem_append.mp hc with hin | hin
      · exact ih (n / 10) (Nat.div_lt_self (by omega) (by omega)) c hin
      · simp only [List.mem_singleton] at hin
        rw [hin]
        exact digitChar_isDigit (Nat.mod_lt n (by omega))

theorem natDigits_all_digit (n : Nat) : ∀ c ∈ natDigits n, c.isDigit = true := by
  rw [natDigits_eq_r]
  exact natDigitsR_all_digit n

theorem parseDigits_natDigitsR (n : Nat) : parseDigits (natDigitsR n) = n := by
  induction n using Nat.strong_induction_on with
  | _ n ih =>
    rw [natDigitsR]
    split
    · next h =>
      simp only [parseDigits, List.foldl_cons, List.foldl_nil]
      rw [digitChar_toNat h]
      omega
    · next h =>
      simp only [parseDigits, List.foldl_append, List.foldl_cons, List.foldl_nil]
      have hmod : (Nat.digitChar (n % 10)).toNat = 48 + n % 10 :=
        digitChar_toNat (Nat.mod_lt n (by omega))
      rw [hmod]
      have hrec : parseDigits (natDigitsR (n / 10)) = n / 10 :=
        ih (n / 10) (Nat.div_lt_self (by omega) (by omega))
      simp only [parseDigits] at hrec
      rw [hrec]
      omega

theorem parseDigits_natDigits (n : Nat) : parseDigits (natDigits n) = n := by
  rw [natDigits_eq_r]
  exact parseDigits_natDigitsR n

theorem natDigits_inj {n m : Nat} (h : natDigits n = natDigits m) : n = m := by
  rw [← parseDigits_natDigits n, h, parseDigits_natDigits]

theorem natDigits_ne_nil (n : Nat) : natDigits n ≠ [] := by
  rw [natDigits_eq_r, natDigitsR]
  split <;> simp

/-- Consume a literal from the front of the input. -/
def stripLit : List Char → List Char → Option (List Char)
  | [], l => some l
  | _ :: _, [] => none
  | a :: as, b :: bs => if a = b then stripLit as bs else none

theorem stripLit_eq_some {lit : List Char} :
    ∀ {l r : List Char}, stripLit lit l = some r ↔ l = lit ++ r := by
  induction lit with
  | nil =>
    intro l r
    simp [stripLit]
  | cons a as ih =>
    intro l r
    cases l with
    | nil => simp [stripLit]
    | cons b bs =>
      by_cases hab : a = b
      · subst hab
        simp only [stripLit, if_pos rfl, List.cons_append, List.cons.injEq,
          true_and]
        exact ih
      · simp only [stripLit, if_neg hab, List.cons_append]
        constructor
        · intro hc; exact absurd hc (by simp)
        · intro hc
          exact absurd ((List.cons.injEq _ _ _ _).mp hc).1 (fun he => hab he.symm)

/-- `\s*\w+:\s*`: drop spaces, require a nonempty word-character run, a
colon, then drop spaces. -/
def afterWsWordColon (l : List Char) : Option (List Char) :=
  match l.dropWhile isSpaceChar with
  | [] => none
  | c :: r =>
      if isWordChar c then
        match r.dropWhile isWordChar with
        | ':' :: r2 => some (r2.dropWhile isSpaceChar)
        | _ => none
      else none

/-- Length of the leading hexadecimal run; `[a-f0-9]{7,40}` matches at a
position exactly when this is at least 7. -/
def hexRunLen (l : List Char) : Nat := (l.takeWhile isHexDigit).length

/-- Attempt of `\+\s*\w+:\s*pull-<n>_[a-f0-9]{7,40}` (the `prPattern` of
`analyzeCommitDiffForPRReference`, built with `strconv.Itoa(prNumber)`) at
a position just past a `+`. -/
def prRefAttempt (n : Nat) (l : List Char) : Bool :=
  match afterWsWordColon l with
  | none => false
  | some r =>
      match stripLit (("pull-").toList ++ natDigits n ++ [ '_' ]) r with
      | none => false
      | some rest => decide (7 ≤ hexRunLen rest)

/-- Try a boolean attempt at every position holding a `+`. -/
def scanPlus (att : List Char → Bool) : List Char → Bool
  | [] => false
  | c :: r => (if c = '+' then att r else false) || scanPlus att r

/-- Whether `prPattern` matches anywhere in the line. -/
def prRefMatch (n : Nat) (line : List Char) : Bool :=
  scanPlus (prRefAttempt n) line

/-- Capture attempt of `shaPattern1` of `ExtractCommitSHAFromRelease`:
`\+\s*\w+:\s*pull-(\d+)_([a-f0-9]{7,40})`, returning (PR digits, SHA). -/
def prCapAttempt (l : List Char) : Option (List Char × List Char) :=
  match afterWsWordColon l with
  | none => none
  | some r =>
      match stripLit (("pull-").toList) r with
      | none => none
      | some r2 =>
          match r2.takeWhile Char.isDigit, r2.dropWhile Char.isDigit with
          | [], _ => none
          | ds, '_' :: r3 =>
              if 7 ≤ hexRunLen r3 then some (ds, (r3.takeWhile isHexDigit).take 40)
              else none
          | _, _ => none

/-- Try a capturing attempt at every position holding a `+`, leftmost
success first. -/
def scanPlusCap {β : Type} (att : List Char → Option β) : List Char → Option β
  | [] => none
  | c :: r =>
      match (if c = '+' then att r else none) with
      | some x => some x
      | none => scanPlusCap att r

/-- Consume exactly `k` decimal digits. -/
def stripDigitsN : Nat → List Char → Option (List Char)
  | 0, l => some l
  | _ + 1, [] => none
  | k + 1, c :: r => if c.isDigit then stripDigitsN k r else none

/-- Consume `\d{4}_\d{2}_\d{2}__\d{2}_\d{2}_\d{2}__` (the timestamp prefix
shared by the two branch-style patterns). -/
def stripTimestamp (l : List Char) : Option (List Char) :=
  (stripDigitsN 4 l).bind fun l1 =>
  (stripLit ([ '_' ]) l1).bind fun l2 =>
  (stripDigitsN 2 l2).bind fun l3 =>
  (stripLit ([ '_' ]) l3).bind fun l4 =>
  (stripDigitsN 2 l4).bind fun l5 =>
  (stripLit ([ '_', '_' ]) l5).bind fun l6 =>
  (stripDigitsN 2 l6).bind fun l7 =>
  (stripLit ([ '_' ]) l7).bind fun l8 =>
  (stripDigitsN 2 l8).bind fun l9 =>
  (stripLit ([ '_' ]) l9).bind fun l10 =>
  (stripDigitsN 2 l10).bind fun l11 =>
  stripLit ([ '_', '_' ]) l11

/-- Attempt of the `branchPattern` of `analyzeCommitDiffForPRReference`:
`\+\s*\w+:\s*\d{4}_\d{2}_\d{2}__\d{2}_\d{2}_\d{2}__<branch>__[a-f0-9]{7,40}`
with the branch name quoted literally (`regexp.QuoteMeta`). -/
def branchRefAttempt (branch : List Char) (l : List Char) : Bool :=
  match afterWsWordColon l with
  | none => false
  | some r =>
      match stripTimestamp r with
      | none => false
      | some r1 =>
          match stripLit branch r1 with
          | none => false
          | some r2 =>
              match stripLit ([ '_', '_' ]) r2 with
              | none => false
              | some r3 => decide (7 ≤ hexRunLen r3)

/-- Whether `branchPattern` matches anywhere in the line. -/
def branchRefMatch (branch : List Char) (line : List Char) : Bool :=
  scanPlus (branchRefAttempt branch) line

/-- Capture attempt of `shaPattern2` of `ExtractCommitSHAFromRelease`:
`\+\s*\w+:\s*\d{4}_\d{2}_\d{2}__\d{2}_\d{2}_\d{2}__[^_]+__([a-f0-9]{7,40})`,
returning the SHA capture. -/
def mainCapAttempt (l : List Char) : Option (List Char) :=
  match afterWsWordColon l with
  | none => none
  | some r =>
      match stripTimestamp r with
      | none => none
      | some r1 =>
          match r1.takeWhile (fun c => decide (c ≠ '_')),
              r1.dropWhile (fun c => decide (c ≠ '_')) with
          | [], _ => none
          | _ :: _, rest =>
              match stripLit ([ '_', '_' ]) rest with
              | none => none
              | some r2 =>
                  if 7 ≤ hexRunLen r2
                  then some ((r2.takeWhile isHexDigit).take 40)
                  else none

/-- `strings.Contains` for a fixed pattern. -/
def containsSub (pat : List Char) : List Char → Bool
  | [] => (stripLit pat []).isSome
  | c :: r => (stripLit pat (c :: r)).isSome || containsSub pat r

/-- `strings.Contains(line, "__main__")`. -/
def containsMainToken (l : List Char) : Bool :=
  containsSub (("__main__").toList) l

/-- Mirrors `github.TagCommit`. -/
structure TagCommit where
  sha : String
  message : String
  date : Int
  author : String
deriving DecidableEq, Repr

/-- One changed file of a commit: its optional unified-diff patch text. -/
structure CommitFile where
  patch : Option (List Char)
deriving DecidableEq, Repr

/-- The fields of a fetched `github.RepositoryCommit` the code reads. -/
structure RepoCommit where
  sha : String
  message : String
  date : Int
  author : String
  files : List CommitFile
deriving DecidableEq, Repr

/-- `strings.HasPrefix(line, "+")`. -/
def startsWithPlus (line : List Char) : Bool :=
  match line with
  | '+' :: _ => true
  | _ => false

/-- Whether one diff line triggers `analyzeCommitDiffForPRReference`: it
must start with `+`, and match the PR pattern or (when a branch name is
present) the branch pattern. -/
def analyzeLine (prNumber : Nat) (prBranch : List Char) (line : List Char) : Bool :=
  startsWithPlus line &&
    (prRefMatch prNumber line ||
      (!prBranch.isEmpty && branchRefMatch prBranch line))

/-- Mirrors `analyzeCommitDiffForPRReference`: no files means no match;
otherwise scan every file's patch lines.  The Go loop returns on the first
matching line, but the returned `TagCommit` does not depend on which line
matched, so first-match collapses to existence. -/
def analyzeCommitDiffForPRReference (commit : RepoCommit) (prNumber : Nat)
    (prBranch : List Char) : Option TagCommit :=
  if commit.files.isEmpty then none
  else if commit.files.any (fun f =>
      match f.patch with
      | none => false
      | some p => (Deploy.splitOnChar '\n' p).any (analyzeLine prNumber prBranch))
  then
    some { sha := commit.sha, message := commit.message,
           date := commit.date, author := commit.author }
  else none

/-- The per-line capture logic of `ExtractCommitSHAFromRelease`: pattern 1
first (PR number and SHA); else pattern 2, accepted only when the line
contains the literal `__main__` (then the PR number stays empty). -/
def extractLineCapture (line : List Char) : Option (List Char × List Char) :=
  match scanPlusCap prCapAttempt line with
  | some c => some c
  | none =>
      match scanPlusCap mainCapAttempt line with
      | some hx => if containsMainToken line then some ([], hx) else none
      | none => none

/-- The diff-scanning core of `ExtractCommitSHAFromRelease` (part_005
lines 181-218): first `+`-prefixed line over the files, in file order then
line order, that yields a capture wins. -/
def extractAppSHAFromFiles (files : List CommitFile) :
    Option (List Char × List Char) :=
  files.findSome? (fun f =>
    match f.patch with
    | none => none
    | some p =>
        (Deploy.splitOnChar '\n' p).findSome? (fun line =>
          if startsWithPlus line then extractLineCapture line else none))

end Github

namespace Github

/-- Mirrors a fetched review: author login, state, submission time. -/
structure Review where
  user : String
  state : String
  submittedAt : Int
deriving DecidableEq, Repr

/-- The fields of a `github.PullRequest` the code reads.  `GetMergedAt()`/
`GetClosedAt()` return the zero time when unset, modelled as `none`. -/
structure PullRequest where
  number : Nat
  title : String
  user : String
  draft : Bool
  state : String
  createdAt : Int
  mergedAt : Option Int
  closedAt : Option Int
  headRef : List Char
deriving DecidableEq, Repr

/-- A commit-list entry: only its SHA is read before the full fetch. -/
structure CommitRef where
  sha : String
deriving DecidableEq, Repr

/-- Mirrors `github.PullRequestMetric`. -/
structure PullRequestMetric where
  prTitle : String
  prNumber : Nat
  author : String
  timeToFirstReview : Int
  firstReviewer : String
  firstReviewState : String
  timeToApproval : Int
  approver : String
  hasReview : Bool
  timeSinceCreation : Int
  tagCommits : List TagCommit
deriving DecidableEq, Repr

/-- The `GitHubClientInterface` collaborator: review fetch, commit-list
fetch over a time window, and single-commit fetch.  Owner/repo arguments
are fixed inside the client functions. -/
structure GitHubClient where
  fetchPullRequestReviews : Nat → Except Unit (List Review)
  fetchCommits : Int → Int → Except Unit (List CommitRef)
  fetchCommit : String → Except Unit RepoCommit

/-- `30 * 24 * time.Hour` in nanoseconds. -/
def thirtyDaysNs : Int := 2592000000000000

/-- The commit-fetch window of `checkPRTagCommits`: start is the PR's
creation time; end is `time.Now()` unless the PR state is "closed", in
which case it is the merge time when set, else the close time when set,
else creation time plus 30 days. -/
def tagWindow (pr : PullRequest) (now : Int) : Int × Int :=
  (pr.createdAt,
    if pr.state = ("closed") then
      match pr.mergedAt with
      | some t => t
      | none =>
          match pr.closedAt with
          | some t => t
          | none => pr.createdAt + thirtyDaysNs
    else now)

/-- Mirrors `checkPRTagCommits`: fetch tags-repo commits over the window
(an error yields the empty result), then for each commit fetch the full
diff (an error skips that commit) and keep every commit whose diff matches
`analyzeCommitDiffForPRReference`. -/
def checkPRTagCommits (client : GitHubClient) (pr : PullRequest) (now : Int) :
    List TagCommit :=
  let prBranch := pr.headRef
  let w := tagWindow pr now
  match client.fetchCommits w.1 w.2 with
  | Except.error _ => []
  | Except.ok commits =>
      commits.filterMap (fun cr =>
        match client.fetchCommit cr.sha with
        | Except.error _ => none
        | Except.ok fullCommit =>
            analyzeCommitDiffForPRReference fullCommit pr.number prBranch)

/-- The loop state of the review scan in `ProcessPullRequests`. -/
structure ReviewAcc where
  firstReviewTime : Option Int
  firstReviewer : String
  firstReviewState : String
  firstApprovalTime : Option Int
  approver : String
  valid : Bool
deriving DecidableEq, Repr

/-- The zero values the Go variables start from. -/
def initAcc : ReviewAcc :=
  { firstReviewTime := none, firstReviewer := (""), firstReviewState := ("")
    firstApprovalTime := none, approver := (""), valid := false }

/-- One iteration of the review loop: skip pending reviews, self-reviews
and deny-listed reviewers; otherwise mark a valid review and update the
first-review and (for approvals) first-approval trackers, each replaced
only on a strictly earlier submission time. -/
def stepReview (prAuthor : String) (denylist : List String)
    (acc : ReviewAcc) (review : Review) : ReviewAcc :=
  if review.state = ("PENDING") ∨ review.user = prAuthor then acc
  else if review.user ∈ denylist then acc
  else
    let acc1 := { acc with valid := true }
    let acc2 :=
      match acc1.firstReviewTime with
      | none =>
          { acc1 with firstReviewTime := some review.submittedAt
                      firstReviewer := review.user
                      firstReviewState := review.state }
      | some t =>
          if review.submittedAt < t then
            { acc1 with firstReviewTime := some review.submittedAt
                        firstReviewer := review.user
                        firstReviewState := review.state }
          else acc1
    if review.state = ("APPROVED") then
      match acc2.firstApprovalTime with
      | none =>
          { acc2 with firstApprovalTime := some review.submittedAt
                      approver := review.user }
      | some t =>
          if review.submittedAt < t then
            { acc2 with firstApprovalTime := some review.submittedAt
                        approver := review.user }
          else acc2
    else acc2

/-- The reviews the loop does not skip. -/
def keepReview (prAuthor : String) (denylist : List String)
    (review : Review) : Bool :=
  !(decide (review.state = ("PENDING") ∨ review.user = prAuthor ∨
      review.user ∈ denylist))

/-- The per-PR body of `ProcessPullRequests`: the eligibility filter in
source order (draft, closed-and-never-merged, deny-listed author), then the
review fetch (an error skips the PR), the review scan, the derived
durations (`time.Time.Sub` / `time.Since`), the optional tag-commit
enrichment, and the emitted metric. -/
def processOnePR (client : GitHubClient) (denylist : List String)
    (hasTagsRepo : Bool) (now : Int) (pr : PullRequest) :
    Option PullRequestMetric :=
  if pr.draft then none
  else if pr.state = ("closed") ∧ pr.mergedAt = none then none
  else if pr.user ∈ denylist then none
  else
    match client.fetchPullRequestReviews pr.number with
    | Except.error _ => none
    | Except.ok reviews =>
        let acc := reviews.foldl (stepReview pr.user denylist) initAcc
        let timeToFirstReview :=
          match acc.firstReviewTime with
          | some t => timeSub t pr.createdAt
          | none => 0
        let timeToApproval :=
          match acc.firstApprovalTime with
          | some t => timeSub t pr.createdAt
          | none => 0
        let timeSinceCreation := timeSub now pr.createdAt
        let tagCommits :=
          if hasTagsRepo then checkPRTagCommits client pr now else []
        some { prTitle := pr.title
               prNumber := pr.number
               author := pr.user
               timeToFirstReview := timeToFirstReview
               firstReviewer := acc.firstReviewer
               firstReviewState := acc.firstReviewState
               timeToApproval := timeToApproval
               approver := acc.approver
               hasReview := acc.valid
               timeSinceCreation := timeSinceCreation
               tagCommits := tagCommits }

/-- Mirrors `ProcessPullRequests`: each PR is processed independently and
contributes at most one metric. -/
def ProcessPullRequests (client : GitHubClient) (prs : List PullRequest)
    (denylist : List String) (hasTagsRepo : Bool) (now : Int) :
    List PullRequestMetric :=
  prs.filterMap (processOnePR client denylist hasTagsRepo now)

end Github

/-! ### Claim C2 — tag-commit enrichment window -/

/-- A still-open PR used to refute the claimed creation+30d window. -/
def prOpenEx : Github.PullRequest :=
  { number := 7, title := ("t"), user := ("alice"), draft := false
    state := ("open"), createdAt := 0, mergedAt := none, closedAt := none
    headRef := [] }

/-- C2 counterexample: for a PR that is still open, `checkPRTagCommits`
fetches commits up to `time.Now()` — not up to creation time + 30 days as
the claim states (the 30-day fallback applies only to closed PRs that have
neither a merge nor a close time). -/
theorem C2_counterexample :
    Github.tagWindow prOpenEx 12345 = (0, 12345) ∧
    (12345 : Int) ≠ 0 + Github.thirtyDaysNs := by decide

/-- C2 (amended): the fetch window of `checkPRTagCommits` starts at the
PR's creation time; its end is the current time for a PR whose state is not
"closed" (including still-open PRs), and for a closed PR it is the merge
time if merged, else the close time if recorded, else the creation time
plus 30 days. -/
theorem C2_tag_window_amended (pr : Github.PullRequest) (now : Int) :
    (Github.tagWindow pr now).1 = pr.createdAt ∧
    (pr.state ≠ ("closed") → (Github.tagWindow pr now).2 = now) ∧
    (pr.state = ("closed") →
      ∀ t, pr.mergedAt = some t → (Github.tagWindow pr now).2 = t) ∧
    (pr.state = ("closed") → pr.mergedAt = none →
      ∀ t, pr.closedAt = some t → (Github.tagWindow pr now).2 = t) ∧
    (pr.state = ("closed") → pr.mergedAt = none → pr.closedAt = none →
      (Github.tagWindow pr now).2 = pr.createdAt + Github.thirtyDaysNs) := by
  refine ⟨rfl, ?_, ?_, ?_, ?_⟩
  · intro h
    simp [Github.tagWindow, h]
  · intro h t hm
    simp [Github.tagWindow, h, hm]
  · intro h hm t hc
    simp [Github.tagWindow, h, hm, hc]
  · intro h hm hc
    simp [Github.tagWindow, h, hm, hc]

/-- C2 witness: a closed-and-merged PR's window ends at its merge time. -/
theorem C2_tag_window_witness :
    (Github.tagWindow
      { number := 7, title := ("t"), user := ("alice"), draft := false
        state := ("closed"), createdAt := 0, mergedAt := some 77
        closedAt := some 99, headRef := [] } 5).2 = 77 :=
  (C2_tag_window_amended
    { number := 7, title := ("t"), user := ("alice"), draft := false
      state := ("closed"), createdAt := 0, mergedAt := some 77
      closedAt := some 99, headRef := [] } 5).2.2.1 rfl 77 rfl

/-! ### Claim C3 — PR eligibility and emission -/

/-- Generic: a `filterMap` emits exactly one element per input whose image
is `some`. -/
theorem length_filterMap_eq_length_filter {α γ : Type} (f : α → Option γ)
    (l : List α) :
    (l.filterMap f).length = (l.filter (fun a => (f a).isSome)).length := by
  induction l with
  | nil => rfl
  | cons a r ih =>
    cases hf : f a with
    | none => simp [List.filterMap_cons, List.filter_cons, hf, ih]
    | some c => simp [List.filterMap_cons, List.filter_cons, hf, ih]

/-- A client whose review fetch always fails. -/
def errClient : Github.GitHubClient :=
  { fetchPullRequestReviews := fun _ => Except.error ()
    fetchCommits := fun _ _ => Except.ok []
    fetchCommit := fun _ => Except.error () }

/-- C3 counterexample: a non-draft, open, non-deny-listed PR — which
survives the claimed filter — produces NO metric when the review fetch
errors, so the surviving PRs are not always emitted. -/
theorem C3_counterexample :
    (prOpenEx.draft = false ∧
      ¬(prOpenEx.state = ("closed") ∧ prOpenEx.mergedAt = none) ∧
      prOpenEx.user ∉ ([] : List String)) ∧
    Github.ProcessPullRequests errClient [prOpenEx] [] false 0 = [] := by decide

/-- C3 (amended): `ProcessPullRequests` maps each PR independently; a PR
yields no metric exactly when it is a draft, or closed and never merged, or
its author is deny-listed (checks in that order), or its review fetch
fails; every other PR yields exactly one metric (the output length equals
the number of PRs whose processing yields a metric), carrying that PR's
number and author. -/
theorem C3_pr_eligibility_amended (client : Github.GitHubClient)
    (denylist : List String) (hasTagsRepo : Bool) (now : Int)
    (prs : List Github.PullRequest) :
    Github.ProcessPullRequests client prs denylist hasTagsRepo now
      = prs.filterMap (Github.processOnePR client denylist hasTagsRepo now) ∧
    (∀ pr, Github.processOnePR client denylist hasTagsRepo now pr = none ↔
      (pr.draft = true ∨ (pr.state = ("closed") ∧ pr.mergedAt = none) ∨
        pr.user ∈ denylist ∨
        client.fetchPullRequestReviews pr.number = Except.error ())) ∧
    (Github.ProcessPullRequests client prs denylist hasTagsRepo now).length
      = (prs.filter (fun pr =>
          (Github.processOnePR client denylist hasTagsRepo now pr).isSome)).length ∧
    (∀ pr m, Github.processOnePR client denylist hasTagsRepo now pr = some m →
      m.prNumber = pr.number ∧ m.author = pr.user) := by
  refine ⟨rfl, ?_, length_filterMap_eq_length_filter _ prs, ?_⟩
  · intro pr
    rw [Github.processOnePR]
    by_cases hd : pr.draft
    · simp [hd]
    · by_cases hcm : pr.state = ("closed") ∧ pr.mergedAt = none
      · simp [hd, hcm]
      · by_cases hdl : pr.user ∈ denylist
        · simp [hd, hcm, hdl]
        · cases hf : client.fetchPullRequestReviews pr.number with
          | error e =>
            cases e
            simp [hd, hcm, hdl, hf]
          | ok reviews =>
            simp [hd, hcm, hdl, hf]
  · intro pr m hm
    rw [Github.processOnePR] at hm
    by_cases hd : pr.draft
    · rw [if_pos hd] at hm; exact absurd hm (by simp)
    · rw [if_neg hd] at hm
      by_cases hcm : pr.state = ("closed") ∧ pr.mergedAt = none
      · rw [if_pos hcm] at hm; exact absurd hm (by simp)
      · rw [if_neg hcm] at hm
        by_cases hdl : pr.user ∈ denylist
        · rw [if_pos hdl] at hm; exact absurd hm (by simp)
        · rw [if_neg hdl] at hm
          cases hf : client.fetchPullRequestReviews pr.number with
          | error e => rw [hf] at hm; exact absurd hm (by simp)
          | ok reviews =>
            rw [hf] at hm
            simp only [Option.some_inj] at hm
            rw [← hm]
            exact ⟨rfl, rfl⟩

/-- C3 witness: a draft PR is dropped. -/
theorem C3_pr_eligibility_witness :
    Github.processOnePR errClient [] false 0
      { number := 7, title := ("t"), user := ("alice"), draft := true
        state := ("open"), createdAt := 0, mergedAt := none, closedAt := none
        headRef := [] } = none :=
  ((C3_pr_eligibility_amended errClient [] false 0 []).2.1
    { number := 7, title := ("t"), user := ("alice"), draft := true
      state := ("open"), createdAt := 0, mergedAt := none, closedAt := none
      headRef := [] }).mpr (Or.inl rfl)

/-! ### Claim C4 — review selection -/

namespace Github

/-- The surviving reviews whose state is "APPROVED". -/
def approvedOf (rs : List Review) : List Review :=
  rs.filter (fun r => decide (r.state = ("APPROVED")))

/-- Invariant of the review loop after processing the surviving reviews
`seen`: the accumulator is pristine iff nothing was seen; `valid` records
whether anything was seen; the first-review fields belong to a seen review
of minimal submission time; the first-approval fields likewise over the
seen approved reviews (untouched when there is none). -/
def accInv (seen : List Review) (acc : ReviewAcc) : Prop :=
  (seen = [] → acc = initAcc) ∧
  (acc.valid = !seen.isEmpty) ∧
  (seen ≠ [] → ∃ r ∈ seen,
    (∀ s ∈ seen, r.submittedAt ≤ s.submittedAt) ∧
    acc.firstReviewTime = some r.submittedAt ∧
    acc.firstReviewer = r.user ∧ acc.firstReviewState = r.state) ∧
  (approvedOf seen = [] →
    acc.firstApprovalTime = none ∧ acc.approver = ("")) ∧
  (approvedOf seen ≠ [] → ∃ r ∈ approvedOf seen,
    (∀ s ∈ approvedOf seen, r.submittedAt ≤ s.submittedAt) ∧
    acc.firstApprovalTime = some r.submittedAt ∧ acc.approver = r.user)

theorem stepReview_skip (author : String) (dl : List String)
    (acc : ReviewAcc) (r : Review) (h : keepReview author dl r = false) :
    stepReview author dl acc r = acc := by
  simp only [keepReview, Bool.not_eq_false', decide_eq_true_eq] at h
  rw [stepReview]
  rcases h with h1 | h2 | h3
  · rw [if_pos (Or.inl h1)]
  · rw [if_pos (Or.inr h2)]
  · by_cases h12 : r.state = ("PENDING") ∨ r.user = author
    · rw [if_pos h12]
    · rw [if_neg h12, if_pos h3]

theorem stepReview_proj (author : String) (dl : List String)
    (acc : ReviewAcc) (r : Review)
    (h12 : ¬(r.state = ("PENDING") ∨ r.user = author)) (h3 : r.user ∉ dl) :
    (stepReview author dl acc r).valid = true ∧
    ((stepReview author dl acc r).firstReviewTime,
      (stepReview author dl acc r).firstReviewer,
      (stepReview author dl acc r).firstReviewState)
      = (match acc.firstReviewTime with
         | none => (some r.submittedAt, r.user, r.state)
         | some t =>
            if r.submittedAt < t then (some r.submittedAt, r.user, r.state)
            else (acc.firstReviewTime, acc.firstReviewer, acc.firstReviewState)) ∧
    ((stepReview author dl acc r).firstApprovalTime,
      (stepReview author dl acc r).approver)
      = (if r.state = ("APPROVED") then
          match acc.firstApprovalTime with
          | none => (some r.submittedAt, r.user)
          | some t =>
              if r.submittedAt < t then (some r.submittedAt, r.user)
              else (acc.firstApprovalTime, acc.approver)
         else (acc.firstApprovalTime, acc.approver)) := by
  obtain ⟨frt, fr, frs, fat, app, vld⟩ := acc
  rw [stepReview, if_neg h12, if_neg h3]
  by_cases hap : r.state = ("APPROVED") <;>
    cases frt <;>
    cases fat <;>
    simp [hap] <;>
    (try (split_ifs <;> simp)) <;>
    (try (split_ifs <;> simp))

end Github

namespace Github

theorem stepReview_inv (author : String) (dl : List String) (r : Review)
    (seen : List Review) (acc : ReviewAcc)
    (hkeep : keepReview author dl r = true) (hinv : accInv seen acc) :
    accInv (seen ++ [r]) (stepReview author dl acc r) := by
  have hkeep' : ¬(r.state = ("PENDING") ∨ r.user = author ∨ r.user ∈ dl) := by
    simpa [keepReview] using hkeep
  have h12 : ¬(r.state = ("PENDING") ∨ r.user = author) := fun hc =>
    hkeep' (by tauto)
  have h3 : r.user ∉ dl := fun hc => hkeep' (by tauto)
  obtain ⟨hvalid', hreview', happroval'⟩ := stepReview_proj author dl acc r h12 h3
  obtain ⟨hempty, hvalid, hfirst, hnapp, happ⟩ := hinv
  have hfilA : approvedOf (seen ++ [r]) = approvedOf seen ++ approvedOf [r] := by
    simp [approvedOf, List.filter_append]
  refine ⟨?_, ?_, ?_, ?_, ?_⟩
  · intro hc
    exact absurd hc (by simp)
  · rw [hvalid']
    simp
  · intro _
    by_cases hs : seen = []
    · subst hs
      have hfrtn : acc.firstReviewTime = none := by simp [hempty rfl, initAcc]
      simp only [hfrtn, Prod.mk.injEq] at hreview'
      obtain ⟨e1, e2, e3⟩ := hreview'
      refine ⟨r, by simp, ?_, e1, e2, e3⟩
      intro s hsm
      simp only [List.nil_append, List.mem_singleton] at hsm
      rw [hsm]
    · obtain ⟨w, hwmem, hwmin, hwfrt, hwfr, hwfrs⟩ := hfirst hs
      simp only [hwfrt] at hreview'
      by_cases hlt : r.submittedAt < w.submittedAt
      · rw [if_pos hlt] at hreview'
        simp only [Prod.mk.injEq] at hreview'
        obtain ⟨e1, e2, e3⟩ := hreview'
        refine ⟨r, by simp, ?_, e1, e2, e3⟩
        intro s hsm
        rcases List.mem_append.mp hsm with hin | hin
        · exact le_trans (le_of_lt hlt) (hwmin s hin)
        · rw [List.mem_singleton.mp hin]
      · rw [if_neg hlt] at hreview'
        simp only [Prod.mk.injEq] at hreview'
        obtain ⟨e1, e2, e3⟩ := hreview'
        refine ⟨w, List.mem_append_left _ hwmem, ?_, e1,
          by rw [e2, hwfr], by rw [e3, hwfrs]⟩
        intro s hsm
        rcases List.mem_append.mp hsm with hin | hin
        · exact hwmin s hin
        · rw [List.mem_singleton.mp hin]
          exact le_of_not_lt hlt
  · intro hc
    rw [hfilA] at hc
    obtain ⟨h1, h2⟩ := List.append_eq_nil.mp hc
    have hap : ¬ r.state = ("APPROVED") := by
      intro hs
      simp [approvedOf, hs] at h2
    rw [if_neg hap] at happroval'
    simp only [Prod.mk.injEq] at happroval'
    obtain ⟨e1, e2⟩ := happroval'
    obtain ⟨f1, f2⟩ := hnapp h1
    exact ⟨by rw [e1, f1], by rw [e2, f2]⟩
  · intro hne
    by_cases hap : r.state = ("APPROVED")
    · have hone : approvedOf [r] = [r] := by simp [approvedOf, hap]
      rw [if_pos hap] at happroval'
      by_cases hseenA : approvedOf seen = []
      · obtain ⟨f1, f2⟩ := hnapp hseenA
        simp only [f1] at happroval'
        simp only [Prod.mk.injEq] at happroval'
        obtain ⟨e1, e2⟩ := happroval'
        refine ⟨r, ?_, ?_, e1, e2⟩
        · rw [hfilA, hseenA, hone]
          simp
        · intro s hsm
          rw [hfilA, hseenA, hone] at hsm
          simp only [List.nil_append, List.mem_singleton] at hsm
          rw [hsm]
      · obtain ⟨wa, hwamem, hwamin, hwafat, hwaapp⟩ := happ hseenA
        simp only [hwafat] at happroval'
        by_cases hlta : r.submittedAt < wa.submittedAt
        · rw [if_pos hlta] at happroval'
          simp only [Prod.mk.injEq] at happroval'
          obtain ⟨e1, e2⟩ := happroval'
          refine ⟨r, ?_, ?_, e1, e2⟩
          · rw [hfilA, hone]
            exact List.mem_append_right _ (List.mem_singleton.mpr rfl)
          · intro s hsm
            rw [hfilA, hone] at hsm
            rcases List.mem_append.mp hsm with hin | hin
            · exact le_trans (le_of_lt hlta) (hwamin s hin)
            · rw [List.mem_singleton.mp hin]
        · rw [if_neg hlta] at happroval'
          simp only [Prod.mk.injEq] at happroval'
          obtain ⟨e1, e2⟩ := happroval'
          refine ⟨wa, ?_, ?_, e1, by rw [e2, hwaapp]⟩
          · rw [hfilA]
            exact List.mem_append_left _ hwamem
          · intro s hsm
            rw [hfilA, hone] at hsm
            rcases List.mem_append.mp hsm with hin | hin
            · exact hwamin s hin
            · rw [List.mem_singleton.mp hin]
              exact le_of_not_lt hlta
    · rw [if_neg hap] at happroval'
      simp only [Prod.mk.injEq] at happroval'
      obtain ⟨e1, e2⟩ := happroval'
      have hsame : approvedOf (seen ++ [r]) = approvedOf seen := by
        simp [approvedOf, List.filter_append, hap]
      rw [hsame] at hne ⊢
      obtain ⟨wa, hwamem, hwamin, hwafat, hwaapp⟩ := happ hne
      exact ⟨wa, hwamem, hwamin, by rw [e1, hwafat], by rw [e2, hwaapp]⟩

theorem foldReview_inv (author : String) (dl : List String) :
    ∀ (rs seen : List Review) (acc : ReviewAcc), accInv seen acc →
    accInv (seen ++ rs.filter (keepReview author dl))
      (rs.foldl (stepReview author dl) acc) := by
  intro rs
  induction rs with
  | nil =>
    intro seen acc hinv
    simpa using hinv
  | cons r rest ih =>
    intro seen acc hinv
    rw [List.foldl_cons, List.filter_cons]
    cases hk : keepReview author dl r with
    | false =>
      simp only [Bool.false_eq_true, if_neg, ite_false]
      rw [stepReview_skip author dl acc r hk]
      exact ih seen acc hinv
    | true =>
      simp only [if_pos, ite_true]
      have : seen ++ r :: rest.filter (keepReview author dl)
          = (seen ++ [r]) ++ rest.filter (keepReview author dl) := by
        simp
      rw [this]
      exact ih (seen ++ [r]) (stepReview author dl acc r)
        (stepReview_inv author dl r seen acc hk hinv)

theorem accInv_init : accInv [] initAcc := by
  refine ⟨fun _ => rfl, rfl, fun hc => absurd rfl hc, fun _ => ⟨rfl, rfl⟩,
    fun hc => absurd ?_ hc⟩
  simp [approvedOf]

end Github

/-- C4: for a surviving PR whose review fetch succeeds, the reviews that
are pending, self-authored, or deny-listed are skipped; among the
remaining (surviving) reviews, a minimum-submission-time review supplies
`firstReviewer`/`firstReviewState` and `timeToFirstReview =
submissionTime - prCreationTime`; independently a minimum-submission-time
APPROVED surviving review supplies `approver`/`timeToApproval`; with no
surviving review, `hasReview` is false (and the approval fields stay
zero); `timeSinceCreation = now - createdAt` is always exposed.  The
range hypotheses say the involved time differences fit in a Go
`time.Duration`. -/
theorem C4_review_selection (client : Github.GitHubClient) (dl : List String)
    (hasTagsRepo : Bool) (now : Int) (pr : Github.PullRequest)
    (reviews : List Github.Review)
    (hdraft : pr.draft = false)
    (hclosed : ¬(pr.state = ("closed") ∧ pr.mergedAt = none))
    (hdeny : pr.user ∉ dl)
    (hfetch : client.fetchPullRequestReviews pr.number = Except.ok reviews)
    (hrange : ∀ r ∈ reviews, -i64Half ≤ r.submittedAt - pr.createdAt ∧
      r.submittedAt - pr.createdAt ≤ i64Half - 1)
    (hnow1 : -i64Half ≤ now - pr.createdAt)
    (hnow2 : now - pr.createdAt ≤ i64Half - 1) :
    ∃ m, Github.processOnePR client dl hasTagsRepo now pr = some m ∧
      m.timeSinceCreation = now - pr.createdAt ∧
      (reviews.filter (Github.keepReview pr.user dl) = [] →
        m.hasReview = false ∧ m.approver = ("") ∧ m.timeToApproval = 0) ∧
      (reviews.filter (Github.keepReview pr.user dl) ≠ [] →
        m.hasReview = true ∧
        ∃ r ∈ reviews.filter (Github.keepReview pr.user dl),
          (∀ s ∈ reviews.filter (Github.keepReview pr.user dl),
            r.submittedAt ≤ s.submittedAt) ∧
          m.firstReviewer = r.user ∧ m.firstReviewState = r.state ∧
          m.timeToFirstReview = r.submittedAt - pr.createdAt) ∧
      (Github.approvedOf (reviews.filter (Github.keepReview pr.user dl)) = [] →
        m.approver = ("") ∧ m.timeToApproval = 0) ∧
      (Github.approvedOf (reviews.filter (Github.keepReview pr.user dl)) ≠ [] →
        ∃ r ∈ Github.approvedOf (reviews.filter (Github.keepReview pr.user dl)),
          (∀ s ∈ Github.approvedOf (reviews.filter (Github.keepReview pr.user dl)),
            r.submittedAt ≤ s.submittedAt) ∧
          m.approver = r.user ∧
          m.timeToApproval = r.submittedAt - pr.createdAt) := by
  have hinv := Github.foldReview_inv pr.user dl reviews [] Github.initAcc
    Github.accInv_init
  rw [List.nil_append] at hinv
  obtain ⟨hempty, hvalid, hfirst, hnapp, happ⟩ := hinv
  have hdraft' : ¬ pr.draft = true := by rw [hdraft]; simp
  refine ⟨⟨pr.title, pr.number, pr.user,
    (match (reviews.foldl (Github.stepReview pr.user dl)
        Github.initAcc).firstReviewTime with
     | some t => timeSub t pr.createdAt
     | none => 0),
    (reviews.foldl (Github.stepReview pr.user dl) Github.initAcc).firstReviewer,
    (reviews.foldl (Github.stepReview pr.user dl) Github.initAcc).firstReviewState,
    (match (reviews.foldl (Github.stepReview pr.user dl)
        Github.initAcc).firstApprovalTime with
     | some t => timeSub t pr.createdAt
     | none => 0),
    (reviews.foldl (Github.stepReview pr.user dl) Github.initAcc).approver,
    (reviews.foldl (Github.stepReview pr.user dl) Github.initAcc).valid,
    timeSub now pr.createdAt,
    (if hasTagsRepo then Github.checkPRTagCommits client pr now else [])⟩,
    ?_, ?_, ?_, ?_, ?_, ?_⟩
  · rw [Github.processOnePR, if_neg hdraft', if_neg hclosed, if_neg hdeny, hfetch]
  · exact timeSub_eq_of_range hnow1 hnow2
  · intro hsurv
    have hacc := hempty hsurv
    rw [hacc]
    exact ⟨rfl, rfl, rfl⟩
  · intro hsurv
    obtain ⟨w, hwmem, hwmin, hwfrt, hwfr, hwfrs⟩ := hfirst hsurv
    constructor
    · rw [hvalid]
      obtain ⟨x, xs, hx⟩ := List.exists_cons_of_ne_nil hsurv
      rw [hx]
      rfl
    · refine ⟨w, hwmem, hwmin, hwfr, hwfrs, ?_⟩
      show (match (reviews.foldl (Github.stepReview pr.user dl)
          Github.initAcc).firstReviewTime with
        | some t => timeSub t pr.createdAt
        | none => 0) = w.submittedAt - pr.createdAt
      rw [hwfrt]
      obtain ⟨hr1, hr2⟩ := hrange w (List.mem_of_mem_filter hwmem)
      exact timeSub_eq_of_range hr1 hr2
  · intro hnap
    obtain ⟨f1, f2⟩ := hnapp hnap
    constructor
    · exact f2
    · show (match (reviews.foldl (Github.stepReview pr.user dl)
          Github.initAcc).firstApprovalTime with
        | some t => timeSub t pr.createdAt
        | none => 0) = (0 : Int)
      rw [f1]
  · intro hap
    obtain ⟨wa, hwamem, hwamin, hwafat, hwaapp⟩ := happ hap
    refine ⟨wa, hwamem, hwamin, hwaapp, ?_⟩
    show (match (reviews.foldl (Github.stepReview pr.user dl)
        Github.initAcc).firstApprovalTime with
      | some t => timeSub t pr.createdAt
      | none => 0) = wa.submittedAt - pr.createdAt
    rw [hwafat]
    have hwa : wa ∈ reviews :=
      List.mem_of_mem_filter (List.mem_of_mem_filter hwamem)
    obtain ⟨hr1, hr2⟩ := hrange wa hwa
    exact timeSub_eq_of_range hr1 hr2

/-- A client returning the claim's two reviews: CHANGES_REQUESTED by
reviewer1 at t=60, APPROVED by reviewer2 at t=120. -/
def clientC4 : Github.GitHubClient :=
  { fetchPullRequestReviews := fun _ =>
      Except.ok [⟨("reviewer1"), ("CHANGES_REQUESTED"), 60⟩,
                 ⟨("reviewer2"), ("APPROVED"), 120⟩]
    fetchCommits := fun _ _ => Except.ok []
    fetchCommit := fun _ => Except.error () }

/-- C4 witness: on the two-review example the metric exists, has a review,
and its first review is the minimum-time surviving review. -/
theorem C4_review_selection_witness :
    ∃ m, Github.processOnePR clientC4 [] false 1000 prOpenEx = some m ∧
      m.hasReview = true ∧ m.timeSinceCreation = 1000 - 0 := by
  obtain ⟨m, hm, hsince, hemp, hne, hnap, hap⟩ :=
    C4_review_selection clientC4 [] false 1000 prOpenEx
      [⟨("reviewer1"), ("CHANGES_REQUESTED"), 60⟩,
       ⟨("reviewer2"), ("APPROVED"), 120⟩]
      rfl (by decide) (by decide) rfl (by decide) (by decide) (by decide)
  exact ⟨m, hm, (hne (by decide)).1, hsince⟩

/-! ### Claim C1 — direct-reference matching -/

namespace Github

theorem word_not_space {c : Char} (h : isWordChar c = true) :
    isSpaceChar c = false := by
  cases hs : isSpaceChar c
  · rfl
  · exfalso
    simp only [isSpaceChar, Bool.or_eq_true, decide_eq_true_eq] at hs
    rcases hs with (((rfl | rfl) | rfl) | rfl) | rfl <;> exact absurd h (by decide)

theorem word_ne_colon {c : Char} (h : isWordChar c = true) : c ≠ ':' := by
  intro hc
  rw [hc] at h
  exact absurd h (by decide)

theorem word_ne_plus {c : Char} (h : isWordChar c = true) : c ≠ '+' := by
  intro hc
  rw [hc] at h
  exact absurd h (by decide)

theorem digit_ne_plus {c : Char} (h : c.isDigit = true) : c ≠ '+' := by
  intro hc
  rw [hc] at h
  exact absurd h (by decide)

theorem hex_ne_plus {c : Char} (h : isHexDigit c = true) : c ≠ '+' := by
  intro hc
  rw [hc] at h
  exact absurd h (by decide)

theorem dropWhile_append_all {p : Char → Bool} :
    ∀ (a l : List Char), (∀ c ∈ a, p c = true) →
    (a ++ l).dropWhile p = l.dropWhile p := by
  intro a
  induction a with
  | nil => intro l _; rfl
  | cons c a' ih =>
    intro l h
    have hc : p c = true := h c (List.mem_cons_self _ _)
    simp only [List.cons_append, List.dropWhile_cons, hc, if_pos]
    exact ih l (fun x hx => h x (List.mem_cons_of_mem _ hx))

theorem dropWhile_cons_false {p : Char → Bool} {c : Char} {l : List Char}
    (h : p c = false) : (c :: l).dropWhile p = c :: l := by
  simp [List.dropWhile_cons, h]

theorem takeWhile_all {p : Char → Bool} :
    ∀ (l : List Char), (∀ c ∈ l, p c = true) → l.takeWhile p = l := by
  intro l
  induction l with
  | nil => intro _; rfl
  | cons c l' ih =>
    intro h
    have hc : p c = true := h c (List.mem_cons_self _ _)
    simp only [List.takeWhile_cons, hc, if_pos, ite_true]
    rw [ih (fun x hx => h x (List.mem_cons_of_mem _ hx))]

theorem takeWhile_append_stop {p : Char → Bool} :
    ∀ (a : List Char) (c0 : Char) (l : List Char),
    (∀ x ∈ a, p x = true) → p c0 = false →
    (a ++ c0 :: l).takeWhile p = a := by
  intro a
  induction a with
  | nil =>
    intro c0 l _ hc0
    simp [List.takeWhile_cons, hc0]
  | cons c a' ih =>
    intro c0 l h hc0
    have hc : p c = true := h c (List.mem_cons_self _ _)
    simp only [List.cons_append, List.takeWhile_cons, hc, if_pos, ite_true]
    rw [ih c0 l (fun x hx => h x (List.mem_cons_of_mem _ hx)) hc0]

theorem dropWhile_append_stop {p : Char → Bool} :
    ∀ (a : List Char) (c0 : Char) (l : List Char),
    (∀ x ∈ a, p x = true) → p c0 = false →
    (a ++ c0 :: l).dropWhile p = c0 :: l := by
  intro a c0 l h hc0
  rw [dropWhile_append_all a (c0 :: l) h, dropWhile_cons_false hc0]

theorem scanPlus_eq_false (att : List Char → Bool) :
    ∀ (l : List Char), (∀ c ∈ l, c ≠ '+') → scanPlus att l = false := by
  intro l
  induction l with
  | nil => intro _; rfl
  | cons c r ih =>
    intro h
    have hc : ¬ c = '+' := h c (List.mem_cons_self _ _)
    simp only [scanPlus, hc, if_neg, ite_false, Bool.false_or]
    exact ih (fun x hx => h x (List.mem_cons_of_mem _ hx))

theorem afterWsWordColon_canon (w rest : List Char) (hw : w ≠ [])
    (hwall : ∀ c ∈ w, isWordChar c = true) :
    afterWsWordColon (w ++ ':' :: ' ' :: rest)
      = some (rest.dropWhile isSpaceChar) := by
  obtain ⟨c, w', rfl⟩ := List.exists_cons_of_ne_nil hw
  have hcword : isWordChar c = true := hwall c (List.mem_cons_self _ _)
  have hw'all : ∀ x ∈ w', isWordChar x = true :=
    fun x hx => hwall x (List.mem_cons_of_mem _ hx)
  have h1 : ((c :: w') ++ ':' :: ' ' :: rest).dropWhile isSpaceChar
      = c :: (w' ++ ':' :: ' ' :: rest) := by
    rw [List.cons_append]
    exact dropWhile_cons_false (word_not_space hcword)
  have h2 : (w' ++ ':' :: ' ' :: rest).dropWhile isWordChar
      = ':' :: ' ' :: rest := by
    rw [dropWhile_append_all w' _ hw'all]
    exact dropWhile_cons_false (by decide)
  rw [afterWsWordColon, h1]
  simp only [hcword, if_pos, ite_true, h2]
  simp [List.dropWhile_cons, isSpaceChar]

end Github

namespace Github

theorem appendCancelLeft : ∀ (a b c : List Char), a ++ b = a ++ c → b = c := by
  intro a
  induction a with
  | nil => intro b c h; simpa using h
  | cons x a' ih =>
    intro b c h
    simp only [List.cons_append, List.cons.injEq, true_and] at h
    exact ih b c h

theorem digits_underscore_eq :
    ∀ (d1 d2 s r : List Char),
    (∀ c ∈ d1, c.isDigit = true) → (∀ c ∈ d2, c.isDigit = true) →
    d2 ++ '_' :: s = d1 ++ '_' :: r → d1 = d2 ∧ s = r := by
  intro d1
  induction d1 with
  | nil =>
    intro d2 s r _ h2 heq
    cases d2 with
    | nil =>
      simp only [List.nil_append, List.cons.injEq, true_and] at heq
      exact ⟨rfl, heq⟩
    | cons c d2' =>
      exfalso
      simp only [List.cons_append, List.nil_append, List.cons.injEq] at heq
      have hc := h2 c (List.mem_cons_self _ _)
      rw [heq.1] at hc
      exact absurd hc (by decide)
  | cons a d1' ih =>
    intro d2 s r h1 h2 heq
    cases d2 with
    | nil =>
      exfalso
      simp only [List.nil_append, List.cons_append, List.cons.injEq] at heq
      have hc := h1 a (List.mem_cons_self _ _)
      rw [← heq.1] at hc
      exact absurd hc (by decide)
    | cons c d2' =>
      simp only [List.cons_append, List.cons.injEq] at heq
      obtain ⟨hca, hrest⟩ := heq
      obtain ⟨he1, he2⟩ := ih d2' s r
        (fun x hx => h1 x (List.mem_cons_of_mem _ hx))
        (fun x hx => h2 x (List.mem_cons_of_mem _ hx)) hrest
      constructor
      · rw [he1, hca]
      · exact he2

theorem prRefAttempt_canon (n m : Nat) (w sha : List Char) (hw : w ≠ [])
    (hwall : ∀ c ∈ w, isWordChar c = true)
    (hsha : ∀ c ∈ sha, isHexDigit c = true) (h7 : 7 ≤ sha.length) :
    (prRefAttempt n
        (w ++ ':' :: ' ' :: (("pull-").toList ++ natDigits m ++ '_' :: sha))
      = true) ↔ n = m := by
  have hrest : ((("pull-").toList ++ natDigits m ++ '_' :: sha).dropWhile
      isSpaceChar) = ("pull-").toList ++ natDigits m ++ '_' :: sha := by
    simp only [show (("pull-").toList) = ['p', 'u', 'l', 'l', '-'] from rfl,
      List.cons_append]
    exact dropWhile_cons_false (by decide)
  rw [prRefAttempt]
  simp only [afterWsWordColon_canon w _ hw hwall, hrest]
  constructor
  · intro hmatch
    cases hstrip : stripLit (("pull-").toList ++ natDigits n ++ [ '_' ])
        (("pull-").toList ++ natDigits m ++ '_' :: sha) with
    | none =>
      rw [hstrip] at hmatch
      simp at hmatch
    | some rest =>
      have heq := stripLit_eq_some.mp hstrip
      rw [List.append_assoc, List.append_assoc, List.append_assoc] at heq
      have heq2 : natDigits m ++ '_' :: sha = natDigits n ++ '_' :: rest := by
        have := appendCancelLeft _ _ _ heq
        simpa using this
      obtain ⟨hnd, _⟩ := digits_underscore_eq (natDigits n) (natDigits m)
        sha rest (natDigits_all_digit n) (natDigits_all_digit m) heq2
      exact natDigits_inj hnd
  · rintro rfl
    have hstrip : stripLit (("pull-").toList ++ natDigits n ++ [ '_' ])
        (("pull-").toList ++ natDigits n ++ '_' :: sha) = some sha := by
      apply stripLit_eq_some.mpr
      simp [List.append_assoc]
    have hlen : hexRunLen sha = sha.length := by
      rw [hexRunLen, takeWhile_all sha hsha]
    simp only [hstrip]
    simp [hlen, h7]

theorem prCapAttempt_canon (m : Nat) (w sha : List Char) (hw : w ≠ [])
    (hwall : ∀ c ∈ w, isWordChar c = true)
    (hsha : ∀ c ∈ sha, isHexDigit c = true) (h7 : 7 ≤ sha.length)
    (h40 : sha.length ≤ 40) :
    prCapAttempt
        (w ++ ':' :: ' ' :: (("pull-").toList ++ natDigits m ++ '_' :: sha))
      = some (natDigits m, sha) := by
  have hrest : ((("pull-").toList ++ natDigits m ++ '_' :: sha).dropWhile
      isSpaceChar) = ("pull-").toList ++ natDigits m ++ '_' :: sha := by
    simp only [show (("pull-").toList) = ['p', 'u', 'l', 'l', '-'] from rfl,
      List.cons_append]
    exact dropWhile_cons_false (by decide)
  have hstrip : stripLit (("pull-").toList)
      (("pull-").toList ++ natDigits m ++ '_' :: sha)
      = some (natDigits m ++ '_' :: sha) := by
    apply stripLit_eq_some.mpr
    simp [List.append_assoc]
  have htake : (natDigits m ++ '_' :: sha).takeWhile Char.isDigit
      = natDigits m :=
    takeWhile_append_stop _ _ _ (natDigits_all_digit m) (by decide)
  have hdrop : (natDigits m ++ '_' :: sha).dropWhile Char.isDigit
      = '_' :: sha :=
    dropWhile_append_stop _ _ _ (natDigits_all_digit m) (by decide)
  have hlen : hexRunLen sha = sha.length := by
    rw [hexRunLen, takeWhile_all sha hsha]
  obtain ⟨d0, ds', hnd⟩ := List.exists_cons_of_ne_nil (natDigits_ne_nil m)
  rw [prCapAttempt]
  simp only [afterWsWordColon_canon w _ hw hwall, hrest]
  simp only [hstrip]
  simp only [htake, hdrop]
  rw [hnd]
  show (if 7 ≤ hexRunLen sha
      then some (d0 :: ds', (sha.takeWhile isHexDigit).take 40)
      else none) = some (d0 :: ds', sha)
  rw [if_pos (by rw [hlen]; exact h7), takeWhile_all sha hsha,
    List.take_of_length_le h40]

theorem canonTail_no_plus (w : List Char) (m : Nat) (sha : List Char)
    (hwall : ∀ c ∈ w, isWordChar c = true)
    (hsha : ∀ c ∈ sha, isHexDigit c = true) :
    ∀ c ∈ w ++ ':' :: ' ' :: (("pull-").toList ++ natDigits m ++ '_' :: sha),
      c ≠ '+' := by
  intro c hc
  have hx : w ++ ':' :: ' ' :: (("pull-").toList ++ natDigits m ++ '_' :: sha)
      = w ++ [':'] ++ [' '] ++ ['p', 'u', 'l', 'l', '-'] ++ natDigits m
        ++ ['_'] ++ sha := by
    rw [show (("pull-").toList) = ['p', 'u', 'l', 'l', '-'] from rfl]
    simp
  rw [hx] at hc
  simp only [List.mem_append] at hc
  rcases hc with ((((((hc | hc) | hc) | hc) | hc) | hc) | hc)
  · exact word_ne_plus (hwall c hc)
  · simp only [List.mem_singleton] at hc; subst hc; decide
  · simp only [List.mem_singleton] at hc; subst hc; decide
  · simp only [List.mem_cons, List.not_mem_nil, or_false] at hc
    rcases hc with rfl | rfl | rfl | rfl | rfl <;> decide
  · exact digit_ne_plus (natDigits_all_digit m c hc)
  · simp only [List.mem_singleton] at hc; subst hc; decide
  · exact hex_ne_plus (hsha c hc)

/-- A diff line of the shape the direct-reference pattern anticipates:
`+<word>: pull-<m>_<sha>`. -/
def canonDirectLine (w : List Char) (m : Nat) (sha : List Char) : List Char :=
  '+' :: (w ++ ':' :: ' ' :: (("pull-").toList ++ natDigits m ++ '_' :: sha))

/-- The example diff line of the claim: `+app2: pull-123_abc123def456`. -/
def exPatchLine : List Char := ("+app2: pull-123_abc123def456").toList

/-- A tags-repo commit whose single file's patch is the example line. -/
def exCommit : RepoCommit :=
  { sha := ("abc123"), message := ("deploy app2"), date := 5,
    author := ("alice"), files := [{ patch := some exPatchLine }] }

/-- The `TagCommit` that `analyzeCommitDiffForPRReference` builds from
`exCommit` when a line matches. -/
def exTag : TagCommit :=
  { sha := ("abc123"), message := ("deploy app2"), date := 5,
    author := ("alice") }

/-- C1: direct-reference matching.  On every canonical added line
`+<word>: pull-<m>_<sha>` (nonempty word of word characters, 7-to-40
hexadecimal SHA), the PR-number pattern of
`analyzeCommitDiffForPRReference` matches exactly when the searched
number `n` equals the embedded number `m`, and the capture pattern of
`ExtractCommitSHAFromRelease` captures the embedded PR digits and the
SHA; in particular the diff line `+app2: pull-123_abc123def456` makes
the commit match PR number 123 (yielding its `TagCommit`), does not
match PR number 999, and the SHA-recovery scan extracts PR number
`123` and SHA `abc123def456`. -/
theorem C1_direct_reference_matching
    (n m : Nat) (w sha : List Char) (hw : w ≠ [])
    (hwall : ∀ c ∈ w, isWordChar c = true)
    (hsha : ∀ c ∈ sha, isHexDigit c = true)
    (h7 : 7 ≤ sha.length) (h40 : sha.length ≤ 40) :
    (prRefMatch n (canonDirectLine w m sha) = true ↔ n = m) ∧
    scanPlusCap prCapAttempt (canonDirectLine w m sha)
      = some (natDigits m, sha) ∧
    analyzeCommitDiffForPRReference exCommit 123 [] = some exTag ∧
    analyzeCommitDiffForPRReference exCommit 999 [] = none ∧
    extractAppSHAFromFiles exCommit.files
      = some ((("123")).toList, (("abc123def456")).toList) := by
  refine ⟨?_, ?_, by decide, by decide, by decide⟩
  · have hfalse := scanPlus_eq_false (prRefAttempt n) _
      (canonTail_no_plus w m sha hwall hsha)
    rw [prRefMatch, canonDirectLine]
    simp only [scanPlus, if_pos rfl, hfalse, Bool.or_false, ite_true]
    exact prRefAttempt_canon n m w sha hw hwall hsha h7
  · rw [canonDirectLine]
    simp only [scanPlusCap, if_pos rfl, ite_true,
      prCapAttempt_canon m w sha hw hwall hsha h7 h40]

/-- C1 witness: the theorem instantiated on the spec's example line. -/
theorem C1_direct_reference_matching_witness :
    (prRefMatch 123 (canonDirectLine (("app2").toList) 123
        (("abc123def456").toList)) = true ↔ 123 = 123) ∧
    scanPlusCap prCapAttempt (canonDirectLine (("app2").toList) 123
        (("abc123def456").toList))
      = some (natDigits 123, ("abc123def456").toList) := by
  have h := C1_direct_reference_matching 123 123 (("app2").toList)
    (("abc123def456").toList) (by decide) (by decide) (by decide)
    (by decide) (by decide)
  exact ⟨h.1, h.2.1⟩

end Github
